import Mathlib

/-!
Verification of the structural-extraction core of the anki-notion converter
(`notion_import.py`): a shallow embedding in Lean 4 of the hashtag extractor,
the media resolver, the callout card parser and the document structure walker,
together with theorems settling the specified properties.

Modelling conventions:
* The parsed HTML document is an explicit tree (`Node`), mirroring what
  BeautifulSoup's `html.parser` hands the Python code: text nodes and element
  nodes carrying a tag name, an attribute list and a child list.
* Character classes are modelled at the ASCII level: `\w` as
  ASCII-alphanumeric-or-underscore, `\s` / `str.strip` as the ASCII whitespace
  set.  URL percent-decoding maps each `%XX` escape to the code point `XX`
  byte-wise.
* The filesystem visible to `os.path.exists` is modelled as the list of
  existing paths, passed explicitly; the `print` diagnostics of the media
  resolver are modelled as a returned list of missing paths.
-/

namespace AnkiNotion

/-! ## Character-level primitives (Python `re` / `str` behaviour) -/

/-- Python regex `\w` (ASCII model): letters, digits, underscore. -/
def isWordChar (c : Char) : Bool := c.isAlphanum || c == '_'

/-- Python regex `\s` / `str.strip` whitespace (ASCII model). -/
def isPySpace (c : Char) : Bool :=
  c == ' ' || c == '\t' || c == '\n' || c == '\r' || c == '\x0b' || c == '\x0c'

/-- Drop trailing characters satisfying `p`. -/
def dropTrail (p : Char → Bool) (l : List Char) : List Char :=
  (l.reverse.dropWhile p).reverse

/-- Python `str.strip()` on a character list. -/
def pyStrip (l : List Char) : List Char := dropTrail isPySpace (l.dropWhile isPySpace)

/-- Python `str.strip()` on a string. -/
def pyStripS (s : String) : String := ⟨pyStrip s.data⟩

/-- One right-to-left pass implementing both `re.findall(r"#(\w+)", s)` and
`re.sub(r"#\w+", "", s)`.  Result `(w, tags, rest)`: the input decomposes as
`w ++ r` where `w` is its maximal leading run of word characters, `tags` are
the hashtag captures of `r` in left-to-right order, and `rest` is `r` with
every `#`-token removed. -/
def scanAux : List Char → List Char × List String × List Char
  | [] => ([], [], [])
  | c :: l =>
    let r := scanAux l
    if isWordChar c then (c :: r.1, r.2.1, r.2.2)
    else if c = '#' then
      match r.1 with
      | [] => ([], r.2.1, '#' :: r.2.2)
      | w => ([], (⟨w⟩ : String) :: r.2.1, r.2.2)
    else ([], r.2.1, c :: (r.1 ++ r.2.2))

/-- `re.findall(r"#(\w+)", s)`: the captured words, in order. -/
def pyFindTags (s : String) : List String := (scanAux s.data).2.1

/-- `re.sub(r"#\w+", "", s)`: the text with every hashtag token removed. -/
def pyRemoveTags (s : String) : List Char := (scanAux s.data).1 ++ (scanAux s.data).2.2

/-- `re.sub(r"\s+", " ", s)`: collapse each whitespace run to one space. -/
def collapseWs : List Char → List Char
  | [] => []
  | [c] => if isPySpace c then [' '] else [c]
  | c :: d :: l =>
    if isPySpace c then
      if isPySpace d then collapseWs (d :: l) else ' ' :: collapseWs (d :: l)
    else c :: collapseWs (d :: l)

/-- The full text clean-up of `extract_hashtags` for one matched text node:
remove hashtag tokens, collapse whitespace runs, strip. -/
def cleanedText (s : String) : String := ⟨pyStrip (collapseWs (pyRemoveTags s))⟩

example : pyFindTags "Q1 #math and #Set_2" = ["math", "Set_2"] := by decide
example : pyFindTags "no tags # here" = [] := by decide
example : cleanedText "Q1 #math  rest" = "Q1 rest" := by decide
example : cleanedText "#only" = "" := by decide

/-- Python string `<`: lexicographic comparison by code point. -/
def charListLt : List Char → List Char → Bool
  | [], [] => false
  | [], _ :: _ => true
  | _ :: _, [] => false
  | a :: s, b :: t => if a < b then true else if b < a then false else charListLt s t

/-- Python string `<=` (used through `sorted`). -/
def pyLe (s t : String) : Bool := !(charListLt t.data s.data)

/-- Python `str.lower()` (ASCII model, per-character). -/
def pyLower (s : String) : String := ⟨s.data.map Char.toLower⟩

/-- Insert into a `pyLe`-sorted list. -/
def insertStr (s : String) : List String → List String
  | [] => [s]
  | t :: r => if pyLe s t then s :: t :: r else t :: insertStr s r

/-- Python `sorted` on strings (insertion sort; ascending lexicographic). -/
def sortStrs : List String → List String
  | [] => []
  | s :: r => insertStr s (sortStrs r)

example : sortStrs ["set_2", "math", "algebra"] = ["algebra", "math", "set_2"] := by decide

/-! ## Path / URL primitives (`urllib.parse.unquote`, `os.path`) -/

/-- Hexadecimal digit value, if any. -/
def hexVal (c : Char) : Option Nat :=
  if '0' ≤ c ∧ c ≤ '9' then some (c.toNat - '0'.toNat)
  else if 'a' ≤ c ∧ c ≤ 'f' then some (c.toNat - 'a'.toNat + 10)
  else if 'A' ≤ c ∧ c ≤ 'F' then some (c.toNat - 'A'.toNat + 10)
  else none

/-- `urllib.parse.unquote` (byte-wise model): each `%XX` escape becomes the
code point `XX`; malformed escapes pass through literally. -/
def unquoteChars : List Char → List Char
  | '%' :: a :: b :: l =>
    match hexVal a, hexVal b with
    | some x, some y => Char.ofNat (16 * x + y) :: unquoteChars l
    | _, _ => '%' :: unquoteChars (a :: b :: l)
  | c :: l => c :: unquoteChars l
  | [] => []

def unquote (s : String) : String := ⟨unquoteChars s.data⟩

/-- `os.path.basename`: the part after the last `/`. -/
def pathBasename (s : String) : String := ⟨(s.data.reverse.takeWhile (· ≠ '/')).reverse⟩

/-- `os.path.join` for a relative (basename) second component. -/
def joinPath (dir fn : String) : String :=
  if dir = "" then fn
  else if dir.data.getLast? = some '/' then dir ++ fn
  else dir ++ "/" ++ fn

/-- `os.path.exists`, over the explicit filesystem model. -/
def pathExists (fs : List String) (p : String) : Bool := fs.contains p

example : unquote "My%20Notes/image%201.png" = "My Notes/image 1.png" := by decide
example : pathBasename "My Notes/image 1.png" = "image 1.png" := by decide
example : joinPath "assets" "a.png" = "assets/a.png" := by decide

/-! ## The document tree -/

/-! A parsed HTML node, as BeautifulSoup presents it to the Python code:
either a text node (`NavigableString`) or an element (`Tag`) with a tag name,
an attribute list and children. -/
mutual
inductive Node where
  | text : String → Node
  | elem : String → List (String × String) → NodeList → Node
deriving DecidableEq, Repr
inductive NodeList where
  | nil : NodeList
  | cons : Node → NodeList → NodeList
deriving DecidableEq, Repr
end

/-- Build a `NodeList` from a `List Node` (for writing concrete documents). -/
def nl : List Node → NodeList
  | [] => .nil
  | n :: r => .cons n (nl r)

def NodeList.toList : NodeList → List Node
  | .nil => []
  | .cons n l => n :: l.toList

/-- Direct children of a node, as a list (`element.children`, tags and text). -/
def childrenOf : Node → List Node
  | .text _ => []
  | .elem _ _ cs => cs.toList

/-- Attribute lookup (`element.get(name)`). -/
def getAttr (a : String) : List (String × String) → Option String
  | [] => none
  | (k, v) :: r => if k = a then some v else getAttr a r

/-- Attribute update (`element[name] = value`): replaces in place, else appends. -/
def setAttr (a v : String) : List (String × String) → List (String × String)
  | [] => [(a, v)]
  | (k, w) :: r => if k = a then (a, v) :: r else (k, w) :: setAttr a v r

/-- Split a class attribute value on whitespace (BeautifulSoup's multi-valued
attribute handling, so that `element.get("class", [])` is a token list). -/
def splitWs : List Char → List (List Char)
  | [] => []
  | [c] => if isPySpace c then [] else [[c]]
  | c :: d :: l =>
    if isPySpace c then splitWs (d :: l)
    else if isPySpace d then [c] :: splitWs (d :: l)
    else
      match splitWs (d :: l) with
      | [] => [[c]]
      | t :: r => (c :: t) :: r

/-- The class token list of a node (`element.get("class", [])`). -/
def classList (n : Node) : List String :=
  match n with
  | .text _ => []
  | .elem _ attrs _ =>
    match getAttr "class" attrs with
    | none => []
    | some s => (splitWs s.data).map (fun l => (⟨l⟩ : String))

/-- Is `n` an element with tag name `nm`? -/
def isElemNamed (nm : String) (n : Node) : Bool :=
  match n with
  | .elem n' _ _ => n' = nm
  | .text _ => false

/-- Does `n` carry class token `cls`? -/
def hasClass (cls : String) (n : Node) : Bool := (classList n).contains cls

/-- `find("div", class_="indented")`-style predicate. -/
def isDivClass (cls : String) (n : Node) : Bool := isElemNamed "div" n && hasClass cls n

/-- `element.name == "figure" and "callout" in element.get("class", [])`. -/
def isCalloutFigure (n : Node) : Bool := isElemNamed "figure" n && hasClass "callout" n

example : splitWs "figure callout".data = ["figure".data, "callout".data] := by decide
example : isCalloutFigure (.elem "figure" [("class", "callout red")] .nil) = true := by decide

/-! ## Tree searches (BeautifulSoup `find` and friends) -/

/-! First node (itself or a descendant) satisfying `p`, in document order. -/
mutual
def findN (p : Node → Bool) : Node → Option Node
  | .text s => if p (.text s) then some (.text s) else none
  | .elem nm attrs cs =>
    if p (.elem nm attrs cs) then some (.elem nm attrs cs) else findL p cs
def findL (p : Node → Bool) : NodeList → Option Node
  | .nil => none
  | .cons n l =>
    match findN p n with
    | some r => some r
    | none => findL p l
end

/-! `element.find(...)`: first descendant (excluding `element` itself)
satisfying `p`, in document order. -/
def findDesc (p : Node → Bool) (n : Node) : Option Node :=
  match n with
  | .text _ => none
  | .elem _ _ cs => findL p cs

/-! All descendant text-node strings, in document order
(`element.find_all(string=True)` / the strings visited by `get_text`). -/
mutual
def textsN : Node → List String
  | .text s => [s]
  | .elem _ _ cs => textsL cs
def textsL : NodeList → List String
  | .nil => []
  | .cons n l => textsN n ++ textsL l
end

/-! `element.get_text(strip=True)`: concatenation of the stripped descendant
strings. -/
def getTextStrip (n : Node) : String := String.join ((textsN n).map pyStripS)

/-! `article.select_one("header > h1")`: first descendant `h1` element whose
parent element is a `header`, in document order. -/
mutual
def selH1N (parentName : String) : Node → Option Node
  | .text _ => none
  | .elem nm attrs cs =>
    if nm = "h1" && parentName = "header" then some (.elem nm attrs cs)
    else selH1L nm cs
def selH1L (parentName : String) : NodeList → Option Node
  | .nil => none
  | .cons n l =>
    match selH1N parentName n with
    | some r => some r
    | none => selH1L parentName l
end

def selectHeaderH1 (article : Node) : Option Node :=
  match article with
  | .text _ => none
  | .elem nm _ cs => selH1L nm cs

/-- `tag.string`: the single descendant string reached through sole children. -/
def nodeString : Node → Option String
  | .text s => some s
  | .elem _ _ (.cons c .nil) => nodeString c
  | .elem _ _ _ => none

/-- Python truthiness of a BeautifulSoup node, as used in `if not tag:`
checks: `Tag.__len__` is the number of children, so an element with no
children is falsy; a `NavigableString` is falsy iff empty. -/
def truthy : Node → Bool
  | .text s => s ≠ ""
  | .elem _ _ .nil => false
  | .elem _ _ (.cons _ _) => true

example :
    getTextStrip (.elem "p" [] (nl [.text " Q1 ", .elem "b" [] (nl [.text " x "])])) =
      "Q1x" := by decide

/-! ## Serialization (`str(element)`, BeautifulSoup minimal formatter) -/

/-- Entity escaping for text nodes: `&`, `<`, `>`. -/
def escTextC (c : Char) : List Char :=
  if c = '&' then "&amp;".data
  else if c = '<' then "&lt;".data
  else if c = '>' then "&gt;".data
  else [c]

/-- Entity escaping for attribute values: `&`, `<`, `>`, `"`. -/
def escAttrC (c : Char) : List Char :=
  if c = '&' then "&amp;".data
  else if c = '<' then "&lt;".data
  else if c = '>' then "&gt;".data
  else if c = '"' then "&quot;".data
  else [c]

def escText (s : String) : String := ⟨(s.data.map escTextC).flatten⟩

def escAttr (s : String) : String := ⟨(s.data.map escAttrC).flatten⟩

def serializeAttrs : List (String × String) → String
  | [] => ""
  | (k, v) :: r => " " ++ k ++ "=\"" ++ escAttr v ++ "\"" ++ serializeAttrs r

/-- HTML void elements, serialized self-closing by BeautifulSoup. -/
def voidTag (nm : String) : Bool :=
  nm = "img" || nm = "br" || nm = "hr" || nm = "meta" || nm = "link" || nm = "input"

/-! `str(element)`: serialize a subtree back to markup. -/
mutual
def serializeN : Node → String
  | .text s => escText s
  | .elem nm attrs .nil =>
    if voidTag nm then "<" ++ nm ++ serializeAttrs attrs ++ "/>"
    else "<" ++ nm ++ serializeAttrs attrs ++ "></" ++ nm ++ ">"
  | .elem nm attrs (.cons c l) =>
    "<" ++ nm ++ serializeAttrs attrs ++ ">" ++ serializeN c ++ serializeL l ++ "</" ++ nm ++ ">"
def serializeL : NodeList → String
  | .nil => ""
  | .cons n l => serializeN n ++ serializeL l
end

example :
    serializeN (.elem "div" [] (nl [.elem "p" [] (nl [.text "a  b"])])) =
      "<div><p>a  b</p></div>" := by decide

/-! ## `extract_hashtags` -/

/-- The rewrite `extract_hashtags` applies to one text node: collect the
hashtag captures (lowercased); when `keep_tags` is false and at least one
token matched, remove the tokens, collapse whitespace and strip. -/
def cleanNodeText (keep : Bool) (s : String) : String × List String :=
  let found := pyFindTags s
  let tags := found.map pyLower
  if !keep && !found.isEmpty then (cleanedText s, tags)
  else (s, tags)

/-! `extract_hashtags(element, keep_tags)`: walk every descendant text node
(skipping those whose parent is a `script` or `style` tag), collect lowercased
`#word` captures in document order, and - when `keep_tags` is false - rewrite
each matched text node in place. -/
mutual
def ehNode (keep : Bool) (parentName : String) : Node → Node × List String
  | .text s =>
    if parentName = "script" || parentName = "style" then (.text s, [])
    else
      let r := cleanNodeText keep s
      (.text r.1, r.2)
  | .elem nm attrs cs =>
    let r := ehList keep nm cs
    (.elem nm attrs r.1, r.2)
def ehList (keep : Bool) (parentName : String) : NodeList → NodeList × List String
  | .nil => (.nil, [])
  | .cons n l =>
    let a := ehNode keep parentName n
    let b := ehList keep parentName l
    (.cons a.1 b.1, a.2 ++ b.2)
end

/-- `extract_hashtags` entry point (the Python function is called on a `Tag`,
whose own parent is irrelevant). -/
def extract_hashtags (element : Node) (keep_tags : Bool) : Node × List String :=
  ehNode keep_tags "" element

/-! ## `process_images` / `process_media_in_html` -/

/-! `process_images(element, assets_dir)`: for every `img` descendant with a
non-empty `src`, decode the URL, take the basename, and if the file exists in
the assets directory rewrite `src` to the bare filename and record the full
path; otherwise leave the reference untouched and record a missing-media
diagnostic.  Returns (rewritten tree, media paths, missing-media paths). -/
mutual
def piNode (dir : String) (fs : List String) : Node → Node × List String × List String
  | .text s => (.text s, [], [])
  | .elem nm attrs cs =>
    let r := piList dir fs cs
    if nm = "img" then
      match getAttr "src" attrs with
      | none => (.elem nm attrs r.1, r.2.1, r.2.2)
      | some src =>
        if src = "" then (.elem nm attrs r.1, r.2.1, r.2.2)
        else
          let fn := pathBasename (unquote src)
          let fp := joinPath dir fn
          if pathExists fs fp then
            (.elem nm (setAttr "src" fn attrs) r.1, fp :: r.2.1, r.2.2)
          else
            (.elem nm attrs r.1, r.2.1, fp :: r.2.2)
    else (.elem nm attrs r.1, r.2.1, r.2.2)
def piList (dir : String) (fs : List String) : NodeList → NodeList × List String × List String
  | .nil => (.nil, [], [])
  | .cons n l =>
    let a := piNode dir fs n
    let b := piList dir fs l
    (.cons a.1 b.1, a.2.1 ++ b.2.1, a.2.2 ++ b.2.2)
end

/-- `process_images` entry point: `find_all("img")` searches the descendants
of the element it is called on (that element is a `div`, never an `img`). -/
def process_images (element : Node) (assets_dir : String) (fs : List String) :
    Node × List String × List String :=
  match element with
  | .text s => (.text s, [], [])
  | .elem nm attrs cs =>
    let r := piList assets_dir fs cs
    (.elem nm attrs r.1, r.2.1, r.2.2)

/-- `AUDIO_EXTENSIONS`. -/
def AUDIO_EXTENSIONS : List String := [".mp3", ".wav", ".ogg", ".m4a"]

/-- `href.lower().endswith(ext)` for some audio extension. -/
def hasAudioExt (href : String) : Bool :=
  AUDIO_EXTENSIONS.any (fun ext => List.isSuffixOf ext.data (href.data.map Char.toLower))

/-- Is `n` an `a` element whose href has an audio extension? -/
def isAudioLink (n : Node) : Bool :=
  match n with
  | .elem "a" attrs _ =>
    hasAudioExt (match getAttr "href" attrs with | some h => h | none => "")
  | _ => false

/-! `process_audio_files(element, assets_dir)`: the audio-link rewriting
present in the source: each `a`-link whose href ends in an audio extension
and whose asset exists is replaced by a `span` holding `[sound:filename]`,
and its path collected.  `process_media_in_html` does NOT call it (the call
is commented out in the source); it is embedded here because the
specification discusses the disabled feature. -/
mutual
def paNode (dir : String) (fs : List String) : Node → Node × List String
  | .text s => (.text s, [])
  | .elem nm attrs cs =>
    if isAudioLink (.elem nm attrs cs) then
      let href := match getAttr "href" attrs with | some h => h | none => ""
      let fn := pathBasename href
      let fp := joinPath dir fn
      if pathExists fs fp then
        (.elem "span" [] (.cons (.text ("[sound:" ++ fn ++ "]")) .nil), [fp])
      else (.elem nm attrs (paList dir fs cs).1, (paList dir fs cs).2)
    else
      let r := paList dir fs cs
      (.elem nm attrs r.1, r.2)
def paList (dir : String) (fs : List String) : NodeList → NodeList × List String
  | .nil => (.nil, [])
  | .cons n l =>
    let a := paNode dir fs n
    let b := paList dir fs l
    (.cons a.1 b.1, a.2 ++ b.2)
end

/-- `process_audio_files` entry point (descendant links of the element). -/
def process_audio_files (element : Node) (assets_dir : String) (fs : List String) :
    Node × List String :=
  match element with
  | .text s => (.text s, [])
  | .elem nm attrs cs =>
    let r := paList assets_dir fs cs
    (.elem nm attrs r.1, r.2)

/-- `process_media_in_html(element, assets_dir)`: process images (audio
processing is commented out in the source), then serialize.
Returns (markup string, media paths, missing-media diagnostics). -/
def process_media_in_html (element : Node) (assets_dir : String) (fs : List String) :
    String × List String × List String :=
  let r := process_images element assets_dir fs
  -- media_files.extend(process_audio_files(element, assets_dir)) is commented
  -- out in the source and therefore absent here.
  (serializeN r.1, r.2.1, r.2.2)

/-! ## `parse_callout` -/

/-- A flashcard (`NotionCard`). -/
structure Card where
  front : String
  back : String
  tags : List String
  media_files : List String
deriving DecidableEq, Repr

/-- First direct child that is an element (the loop over `first_div.children`
skipping `NavigableString`s). -/
def firstElemChildL : NodeList → Option Node
  | .nil => none
  | .cons (.elem nm a cs) _ => some (.elem nm a cs)
  | .cons (.text _) l => firstElemChildL l

def firstElemChild (n : Node) : Option Node :=
  match n with
  | .text _ => none
  | .elem _ _ cs => firstElemChildL cs

/-- `first_element.extract()`: the container with its first element child
removed. -/
def removeFirstElemL : NodeList → NodeList
  | .nil => .nil
  | .cons (.elem _ _ _) l => l
  | .cons (.text s) l => .cons (.text s) (removeFirstElemL l)

def removeFirstElemChild (n : Node) : Node :=
  match n with
  | .text s => .text s
  | .elem nm a cs => .elem nm a (removeFirstElemL cs)

/-- `parse_callout(callout, assets_dir, keep_tags)`. -/
def parse_callout (callout : Node) (assets_dir : String) (fs : List String)
    (keep_tags : Bool) : Option Card :=
  match findDesc (isElemNamed "div") callout with
  | none => none
  | some first_div =>
    -- `if not first_div: return None` also fires for a childless div
    if truthy first_div = false then none
    else
    let er := extract_hashtags first_div keep_tags
    match firstElemChild er.1 with
    | none => none
    | some first_element =>
      let front_text := getTextStrip first_element
      if front_text = "" then none
      else
        let back := removeFirstElemChild er.1
        let mr := process_media_in_html back assets_dir fs
        let unique_tags := sortStrs (er.2.map pyLower).dedup
        some ⟨front_text, mr.1, unique_tags, mr.2.1⟩

/-! ## The document structure walker (`parse_html_file`) -/

def DEFAULT_SUBDECK_NAME : String := "Default"

/-- The subdeck mapping: an insertion-ordered association list, as a Python
`dict` preserves insertion order. -/
abbrev Subdecks := List (String × List Card)

def lookupSD (k : String) : Subdecks → Option (List Card)
  | [] => none
  | (k', v) :: r => if k' = k then some v else lookupSD k r

def containsSD (k : String) (sd : Subdecks) : Bool := (lookupSD k sd).isSome

/-- `if name not in subdecks: subdecks[name] = []`. -/
def insertIfAbsent (k : String) (sd : Subdecks) : Subdecks :=
  if containsSD k sd then sd else sd ++ [(k, [])]

/-- `subdecks[name].append(...)` for each card, batched. -/
def appendCards (k : String) (cards : List Card) (sd : Subdecks) : Subdecks :=
  sd.map (fun kv => if kv.1 = k then (kv.1, kv.2 ++ cards) else kv)

/-- `_process_details_subdeck(details, subdecks, assets_dir, keep_tags)`. -/
def _process_details_subdeck (details : Node) (sd : Subdecks) (assets_dir : String)
    (fs : List String) (keep_tags : Bool) : Subdecks :=
  match findDesc (isElemNamed "summary") details with
  | none => sd
  | some summary =>
    -- `if not summary: return` also fires for a childless summary
    if truthy summary = false then sd
    else
    let subdeck_name := getTextStrip summary
    let sd1 := insertIfAbsent subdeck_name sd
    match findDesc (isDivClass "indented") details with
    | none => sd1
    | some indented =>
      if truthy indented = false then sd1
      else
      let callouts := (childrenOf indented).filter isCalloutFigure
      appendCards subdeck_name
        (callouts.filterMap (fun c => parse_callout c assets_dir fs keep_tags)) sd1

/-- `_process_standalone_callout(callout, subdecks, assets_dir, keep_tags)`. -/
def _process_standalone_callout (callout : Node) (sd : Subdecks) (assets_dir : String)
    (fs : List String) (keep_tags : Bool) : Subdecks :=
  let sd1 := insertIfAbsent DEFAULT_SUBDECK_NAME sd
  match parse_callout callout assets_dir fs keep_tags with
  | none => sd1
  | some card => appendCards DEFAULT_SUBDECK_NAME [card] sd1

/-- `extract_css_from_html`: `style_tag.string if style_tag else ""`
(`none` models Python `None` when the style tag has no single string). -/
def extract_css_from_html (doc : Node) : Option String :=
  match findDesc (isElemNamed "style") doc with
  | none => some ""
  | some style_tag =>
    if truthy style_tag then nodeString style_tag else some ""

/-- Dispatch for one top-level element of the page body. -/
def stepTop (assets_dir : String) (fs : List String) (keep_tags : Bool)
    (sd : Subdecks) (element : Node) : Subdecks :=
  if isElemNamed "details" element then
    _process_details_subdeck element sd assets_dir fs keep_tags
  else if isElemNamed "figure" element && hasClass "callout" element then
    _process_standalone_callout element sd assets_dir fs keep_tags
  else sd

/-- `parse_html_file(html_path, assets_dir, keep_tags)`, over the already
parsed document tree `doc` (the Python function reads and parses the file
first; `doc` is the resulting soup's document root).
Returns `(deck_name, subdecks, css)`. -/
def parse_html_file (doc : Node) (assets_dir : String) (fs : List String)
    (keep_tags : Bool) : String × Subdecks × Option String :=
  let css := extract_css_from_html doc
  match findDesc (isElemNamed "article") doc with
  | none => ("Notion Deck", [], css)
  | some article =>
    if truthy article = false then ("Notion Deck", [], css)
    else
    let deck_name :=
      match selectHeaderH1 article with
      | some header => if truthy header then getTextStrip header else "Notion Deck"
      | none => "Notion Deck"
    match findDesc (isDivClass "page-body") article with
    | none => (deck_name, [], css)
    | some page_body =>
      if truthy page_body = false then (deck_name, [], css)
      else
      let tops := (childrenOf page_body).filter
        (fun e => isElemNamed "details" e || isElemNamed "figure" e)
      (deck_name, tops.foldl (stepTop assets_dir fs keep_tags) [], css)

/-! ## Concrete documents used in examples, witnesses and counterexamples -/

/-- Scenario A callout: `<figure class="callout"><div><p>Q1 #math</p><p>Answer</p></div></figure>`. -/
def calloutA : Node :=
  .elem "figure" [("class", "callout")] (nl [
    .elem "div" [] (nl [
      .elem "p" [] (nl [.text "Q1 #math"]),
      .elem "p" [] (nl [.text "Answer"])])])

/-- Scenario A document: one collapsible section "Chapter 1" holding `calloutA`. -/
def docA : Node :=
  .elem "[document]" [] (nl [
    .elem "html" [] (nl [
      .elem "body" [] (nl [
        .elem "article" [] (nl [
          .elem "header" [] (nl [.elem "h1" [] (nl [.text "My Deck"])]),
          .elem "div" [("class", "page-body")] (nl [
            .elem "details" [] (nl [
              .elem "summary" [] (nl [.text "Chapter 1"]),
              .elem "div" [("class", "indented")] (nl [calloutA])])])])])])])

example : parse_callout calloutA "assets" [] true =
    some ⟨"Q1 #math", "<div><p>Answer</p></div>", ["math"], []⟩ := by decide

example : parse_callout calloutA "assets" [] false =
    some ⟨"Q1", "<div><p>Answer</p></div>", ["math"], []⟩ := by decide

example : (parse_html_file docA "assets" [] true).1 = "My Deck" := by decide

example : (parse_html_file docA "assets" [] true).2.1 =
    [("Chapter 1", [⟨"Q1 #math", "<div><p>Answer</p></div>", ["math"], []⟩])] := by decide

/-! ## Order and sorting lemmas for tag lists -/

theorem charListLt_irrefl : ∀ l, charListLt l l = false
  | [] => rfl
  | _ :: s => by simp [charListLt, lt_self_iff_false, charListLt_irrefl s]

theorem charListLt_cons (a b : Char) (s t : List Char) :
    charListLt (a :: s) (b :: t) = true ↔ a < b ∨ (a = b ∧ charListLt s t = true) := by
  simp only [charListLt]
  rcases lt_trichotomy a b with h | h | h
  · simp [h]
  · subst h
    simp [lt_self_iff_false]
  · simp [lt_asymm h, h, (ne_of_gt h)]

theorem charListLt_asymm : ∀ s t, charListLt s t = true → charListLt t s = false
  | [], [] => by simp [charListLt]
  | [], _ :: _ => by simp [charListLt]
  | _ :: _, [] => by simp [charListLt]
  | a :: s, b :: t => by
    intro h
    rcases (charListLt_cons a b s t).mp h with hab | ⟨rfl, hst⟩
    · rw [Bool.eq_false_iff]
      intro hba
      rcases (charListLt_cons b a t s).mp hba with hba' | ⟨heq, _⟩
      · exact absurd (lt_trans hab hba') (lt_irrefl a)
      · rw [heq] at hab
        exact absurd hab (lt_irrefl a)
    · rw [Bool.eq_false_iff]
      intro hba
      rcases (charListLt_cons a a t s).mp hba with hba' | ⟨_, hts⟩
      · exact absurd hba' (lt_irrefl a)
      · exact absurd hts (by simp [charListLt_asymm s t hst])

theorem charListLt_trans :
    ∀ l1 l2 l3, charListLt l1 l2 = true → charListLt l2 l3 = true → charListLt l1 l3 = true
  | [], [], _, h1, _ => by simp [charListLt] at h1
  | [], _ :: _, [], _, h2 => by simp [charListLt] at h2
  | [], _ :: _, _ :: _, _, _ => by simp [charListLt]
  | _ :: _, [], _, h1, _ => by simp [charListLt] at h1
  | _ :: _, _ :: _, [], _, h2 => by simp [charListLt] at h2
  | a :: s, b :: t, c :: u, h1, h2 => by
    rcases (charListLt_cons a b s t).mp h1 with hab | ⟨rfl, hst⟩
    · rcases (charListLt_cons b c t u).mp h2 with hbc | ⟨rfl, htu⟩
      · exact (charListLt_cons a c s u).mpr (Or.inl (lt_trans hab hbc))
      · exact (charListLt_cons a b s u).mpr (Or.inl hab)
    · rcases (charListLt_cons a c t u).mp h2 with hbc | ⟨rfl, htu⟩
      · exact (charListLt_cons a c s u).mpr (Or.inl hbc)
      · exact (charListLt_cons a a s u).mpr (Or.inr ⟨rfl, charListLt_trans s t u hst htu⟩)

theorem charListLt_total : ∀ s t, charListLt s t = true ∨ s = t ∨ charListLt t s = true
  | [], [] => Or.inr (Or.inl rfl)
  | [], _ :: _ => Or.inl (by simp [charListLt])
  | _ :: _, [] => Or.inr (Or.inr (by simp [charListLt]))
  | a :: s, b :: t => by
    rcases lt_trichotomy a b with h | h | h
    · exact Or.inl ((charListLt_cons a b s t).mpr (Or.inl h))
    · subst h
      rcases charListLt_total s t with h' | h' | h'
      · exact Or.inl ((charListLt_cons a a s t).mpr (Or.inr ⟨rfl, h'⟩))
      · subst h'
        exact Or.inr (Or.inl rfl)
      · exact Or.inr (Or.inr ((charListLt_cons a a t s).mpr (Or.inr ⟨rfl, h'⟩)))
    · exact Or.inr (Or.inr ((charListLt_cons b a t s).mpr (Or.inl h)))

theorem pyLe_total (s t : String) : pyLe s t = true ∨ pyLe t s = true := by
  by_cases h : charListLt t.data s.data = true
  · right
    simpa [pyLe] using charListLt_asymm _ _ h
  · left
    simp [pyLe, Bool.not_eq_true] at h ⊢
    exact h

theorem pyLe_trans {s t u : String} (h1 : pyLe s t = true) (h2 : pyLe t u = true) :
    pyLe s u = true := by
  simp only [pyLe, Bool.not_eq_true'] at h1 h2 ⊢
  by_contra hc
  simp only [Bool.not_eq_false] at hc
  rcases charListLt_total t.data s.data with h | h | h
  · exact absurd h1 (by simp [h])
  · rw [h] at h2
    exact absurd h2 (by simp [hc])
  · exact absurd h2 (by simp [charListLt_trans _ _ _ hc h])

theorem insertStr_perm (s : String) : ∀ l, (insertStr s l).Perm (s :: l)
  | [] => List.Perm.refl _
  | t :: r => by
    simp only [insertStr]
    split
    · exact List.Perm.refl _
    · exact ((insertStr_perm s r).cons t).trans (List.Perm.swap s t r)

theorem sortStrs_perm : ∀ l, (sortStrs l).Perm l
  | [] => List.Perm.refl _
  | s :: r => (insertStr_perm s (sortStrs r)).trans ((sortStrs_perm r).cons s)

theorem insertStr_sorted (s : String) :
    ∀ l, List.Sorted (fun a b => pyLe a b = true) l →
      List.Sorted (fun a b => pyLe a b = true) (insertStr s l)
  | [], _ => by simp [insertStr]
  | t :: r, h => by
    simp only [insertStr]
    rw [List.sorted_cons] at h
    split
    · rename_i hle
      rw [List.sorted_cons]
      refine ⟨?_, List.sorted_cons.mpr h⟩
      intro b hb
      rcases List.mem_cons.mp hb with rfl | hb'
      · exact hle
      · exact pyLe_trans hle (h.1 b hb')
    · rename_i hnle
      have hts : pyLe t s = true := by
        rcases pyLe_total s t with h' | h'
        · exact absurd h' hnle
        · exact h'
      rw [List.sorted_cons]
      constructor
      · intro b hb
        have hbm : b ∈ s :: r := (insertStr_perm s r).mem_iff.mp hb
        rcases List.mem_cons.mp hbm with rfl | hb'
        · exact hts
        · exact h.1 b hb'
      · exact insertStr_sorted s r h.2

theorem sortStrs_sorted : ∀ l, List.Sorted (fun a b => pyLe a b = true) (sortStrs l)
  | [] => by simp [sortStrs]
  | s :: r => insertStr_sorted s (sortStrs r) (sortStrs_sorted r)

theorem sortStrs_nodup {l : List String} (h : l.Nodup) : (sortStrs l).Nodup :=
  ((sortStrs_perm l).nodup_iff).mpr h

theorem mem_sortStrs {l : List String} {t : String} : t ∈ sortStrs l ↔ t ∈ l :=
  (sortStrs_perm l).mem_iff

/-! Lowercasing is idempotent (ASCII model). -/

theorem toNat_ofNat_small (n : Nat) (h : n < 0xd800) : (Char.ofNat n).toNat = n := by
  rw [Char.ofNat, dif_pos (Or.inl (by omega))]
  rfl

theorem toLower_toLower (c : Char) : c.toLower.toLower = c.toLower := by
  unfold Char.toLower
  by_cases h : c.toNat ≥ 65 ∧ c.toNat ≤ 90
  · rw [if_pos h]
    have hv : (Char.ofNat (c.toNat + 32)).toNat = c.toNat + 32 :=
      toNat_ofNat_small _ (by omega)
    rw [if_neg (by omega)]
  · rw [if_neg h, if_neg h]

theorem pyLower_pyLower (s : String) : pyLower (pyLower s) = pyLower s := by
  simp only [pyLower, List.map_map]
  congr 1
  exact List.map_congr_left fun c _ => toLower_toLower c

/-! ## C7: tag lists are lowercase, duplicate-free and sorted -/

theorem parse_callout_tags_shape (callout : Node) (dir : String) (fs : List String)
    (keep : Bool) (card : Card) (h : parse_callout callout dir fs keep = some card) :
    ∃ raw : List String, card.tags = sortStrs (raw.map pyLower).dedup := by
  unfold parse_callout at h
  split at h
  · exact absurd h (by simp)
  · split at h
    · exact absurd h (by simp)
    · try simp only [] at h
      split at h
      · exact absurd h (by simp)
      · try simp only [] at h
        split at h
        · exact absurd h (by simp)
        · rw [Option.some.injEq] at h
          subst h
          exact ⟨_, rfl⟩

/-- **C7**: for every card produced by `parse_callout`, the tags list is
lowercase, contains no duplicates, and is sorted ascending lexicographically. -/
theorem parse_callout_tags_canonical (callout : Node) (dir : String) (fs : List String)
    (keep : Bool) (card : Card) (h : parse_callout callout dir fs keep = some card) :
    List.Sorted (fun a b => pyLe a b = true) card.tags ∧ card.tags.Nodup ∧
      ∀ t ∈ card.tags, pyLower t = t := by
  obtain ⟨raw, hts⟩ := parse_callout_tags_shape callout dir fs keep card h
  rw [hts]
  refine ⟨sortStrs_sorted _, sortStrs_nodup (List.nodup_dedup _), ?_⟩
  intro t ht
  have h1 : t ∈ (raw.map pyLower).dedup := mem_sortStrs.mp ht
  have h2 : t ∈ raw.map pyLower := List.mem_dedup.mp h1
  obtain ⟨u, _, rfl⟩ := List.mem_map.mp h2
  exact pyLower_pyLower u

/-- A callout whose front mentions three hashtags with mixed casing and one
duplicate modulo case. -/
def calloutW : Node :=
  .elem "figure" [("class", "callout")] (nl [
    .elem "div" [] (nl [
      .elem "p" [] (nl [.text "Q #Beta #alpha #BETA"]),
      .elem "p" [] (nl [.text "A"])])])

def cardW : Card := ⟨"Q #Beta #alpha #BETA", "<div><p>A</p></div>", ["alpha", "beta"], []⟩

theorem parse_callout_tags_canonical_witness :
    List.Sorted (fun a b => pyLe a b = true) cardW.tags ∧ cardW.tags.Nodup ∧
      ∀ t ∈ cardW.tags, pyLower t = t :=
  parse_callout_tags_canonical calloutW "assets" [] true cardW (by decide)

/-! ## C8: with keep_tags=true the tree is untouched and tags still collected -/

theorem cleanNodeText_snd (keep : Bool) (s : String) :
    (cleanNodeText keep s).2 = (pyFindTags s).map pyLower := by
  by_cases hc : (!keep && !(pyFindTags s).isEmpty) = true <;>
    simp [cleanNodeText, hc]

mutual
theorem ehNode_keep_frame : ∀ (pn : String) (n : Node), (ehNode true pn n).1 = n
  | _, .text s => by
    simp only [ehNode]
    split
    · rfl
    · simp [cleanNodeText]
  | pn, .elem nm attrs cs => by
    simp only [ehNode]
    rw [ehList_keep_frame nm cs]
theorem ehList_keep_frame : ∀ (pn : String) (l : NodeList), (ehList true pn l).1 = l
  | _, .nil => rfl
  | pn, .cons n l => by
    simp only [ehList]
    rw [ehNode_keep_frame pn n, ehList_keep_frame pn l]
end

mutual
theorem ehNode_tags_indep :
    ∀ (k1 k2 : Bool) (pn : String) (n : Node), (ehNode k1 pn n).2 = (ehNode k2 pn n).2
  | k1, k2, pn, .text s => by
    simp only [ehNode]
    split
    · rfl
    · rw [cleanNodeText_snd k1 s, cleanNodeText_snd k2 s]
  | k1, k2, pn, .elem nm attrs cs => by
    simp only [ehNode]
    rw [ehList_tags_indep k1 k2 nm cs]
theorem ehList_tags_indep :
    ∀ (k1 k2 : Bool) (pn : String) (l : NodeList), (ehList k1 pn l).2 = (ehList k2 pn l).2
  | _, _, _, .nil => rfl
  | k1, k2, pn, .cons n l => by
    simp only [ehList]
    rw [ehNode_tags_indep k1 k2 pn n, ehList_tags_indep k1 k2 pn l,
      ehNode_tags_indep k2 k2 pn n]
end

/-- **C8**: with `keep_tags = true`, `extract_hashtags` leaves the whole
subtree untouched (every text node keeps its `#word` tokens byte-for-byte)
while the collected tags are the same as in the stripping mode. -/
theorem extract_hashtags_keep_frame (element : Node) :
    (extract_hashtags element true).1 = element ∧
    (extract_hashtags element true).2 = (extract_hashtags element false).2 :=
  ⟨ehNode_keep_frame "" element, ehNode_tags_indep true false "" element⟩

/-! ## Media resolution: specification-side descriptions -/

/-! The `src` attributes of all `img` descendants (and the node itself),
in document order. -/
mutual
def imgSrcsN : Node → List (Option String)
  | .text _ => []
  | .elem nm attrs cs => (if nm = "img" then [getAttr "src" attrs] else []) ++ imgSrcsL cs
def imgSrcsL : NodeList → List (Option String)
  | .nil => []
  | .cons n l => imgSrcsN n ++ imgSrcsL l
end

/-- The `src` attributes of the `img` descendants of an element (excluding
the element itself, matching `find_all("img")`). -/
def imgSrcs (element : Node) : List (Option String) :=
  match element with
  | .text _ => []
  | .elem _ _ cs => imgSrcsL cs

/-- What one image reference's `src` looks like after media processing:
rewritten to the decoded basename when the asset exists, untouched otherwise. -/
def newSrc (dir : String) (fs : List String) (o : Option String) : Option String :=
  match o with
  | none => none
  | some s =>
    if s = "" then some s
    else
      let fn := pathBasename (unquote s)
      if pathExists fs (joinPath dir fn) then some fn else some s

/-- The media-list entry contributed by one image reference: the joined
asset path when the asset exists, nothing otherwise. -/
def mediaOfSrc (dir : String) (fs : List String) (o : Option String) : Option String :=
  match o with
  | none => none
  | some s =>
    if s = "" then none
    else
      let fp := joinPath dir (pathBasename (unquote s))
      if pathExists fs fp then some fp else none

/-- The missing-media diagnostic contributed by one image reference. -/
def missingOfSrc (dir : String) (fs : List String) (o : Option String) : Option String :=
  match o with
  | none => none
  | some s =>
    if s = "" then none
    else
      let fp := joinPath dir (pathBasename (unquote s))
      if pathExists fs fp then none else some fp

/-- The rewritten filename contributed by one image reference (the basename
the reference shows in the back markup after a successful resolution). -/
def resolvedName (dir : String) (fs : List String) (o : Option String) : Option String :=
  match o with
  | none => none
  | some s =>
    if s = "" then none
    else
      let fn := pathBasename (unquote s)
      if pathExists fs (joinPath dir fn) then some fn else none

/-! Erase the `src` attribute of every `img`: the part of the tree that media
processing is allowed to change. -/
mutual
def eraseSrcN : Node → Node
  | .text s => .text s
  | .elem nm attrs cs =>
    .elem nm (if nm = "img" then attrs.filter (fun kv => !(kv.1 == "src")) else attrs)
      (eraseSrcL cs)
def eraseSrcL : NodeList → NodeList
  | .nil => .nil
  | .cons n l => .cons (eraseSrcN n) (eraseSrcL l)
end

/-! The `href` attributes of all `a` (anchor) descendants, in document order. -/
mutual
def aHrefsN : Node → List (Option String)
  | .text _ => []
  | .elem nm attrs cs => (if nm = "a" then [getAttr "href" attrs] else []) ++ aHrefsL cs
def aHrefsL : NodeList → List (Option String)
  | .nil => []
  | .cons n l => aHrefsN n ++ aHrefsL l
end

theorem getAttr_setAttr (a v : String) : ∀ l, getAttr a (setAttr a v l) = some v
  | [] => by simp [setAttr, getAttr]
  | (k, w) :: r => by
    by_cases h : k = a
    · simp [setAttr, getAttr, h]
    · simp [setAttr, getAttr, h, getAttr_setAttr a v r]

theorem filter_setAttr (a v : String) :
    ∀ l, (setAttr a v l).filter (fun kv => !(kv.1 == a)) = l.filter (fun kv => !(kv.1 == a))
  | [] => by simp [setAttr]
  | (k, w) :: r => by
    by_cases h : k = a
    · simp [setAttr, h]
    · simp [setAttr, h, filter_setAttr a v r]

/-! The master characterization of `process_images`: the media list, missing
diagnostics and rewritten `src` attributes are pointwise functions of the
image sources, and nothing else in the tree changes. -/
mutual
theorem piNode_spec (dir : String) (fs : List String) : ∀ n : Node,
    imgSrcsN (piNode dir fs n).1 = (imgSrcsN n).map (newSrc dir fs) ∧
    (piNode dir fs n).2.1 = (imgSrcsN n).filterMap (mediaOfSrc dir fs) ∧
    (piNode dir fs n).2.2 = (imgSrcsN n).filterMap (missingOfSrc dir fs) ∧
    textsN (piNode dir fs n).1 = textsN n ∧
    eraseSrcN (piNode dir fs n).1 = eraseSrcN n
  | .text s => by
    simp [piNode, imgSrcsN, textsN, eraseSrcN]
  | .elem nm attrs cs => by
    obtain ⟨h1, h2, h3, h4, h5⟩ := piList_spec dir fs cs
    by_cases himg : nm = "img"
    · subst himg
      cases hsrc : getAttr "src" attrs with
      | none =>
        simp [piNode, hsrc, imgSrcsN, textsN, eraseSrcN, h1, h2, h3, h4, h5,
          newSrc, mediaOfSrc, missingOfSrc]
      | some src =>
        by_cases hempty : src = ""
        · simp [piNode, hsrc, hempty, imgSrcsN, textsN, eraseSrcN, h1, h2, h3, h4, h5,
            newSrc, mediaOfSrc, missingOfSrc]
        · by_cases hex : pathExists fs (joinPath dir (pathBasename (unquote src))) = true
          · simp [piNode, hsrc, hempty, hex, imgSrcsN, textsN, eraseSrcN,
              h1, h2, h3, h4, h5, newSrc, mediaOfSrc, missingOfSrc,
              getAttr_setAttr, filter_setAttr]
          · rw [Bool.not_eq_true] at hex
            simp [piNode, hsrc, hempty, hex, imgSrcsN, textsN, eraseSrcN,
              h1, h2, h3, h4, h5, newSrc, mediaOfSrc, missingOfSrc]
    · simp [piNode, himg, imgSrcsN, textsN, eraseSrcN, h1, h2, h3, h4, h5]
theorem piList_spec (dir : String) (fs : List String) : ∀ l : NodeList,
    imgSrcsL (piList dir fs l).1 = (imgSrcsL l).map (newSrc dir fs) ∧
    (piList dir fs l).2.1 = (imgSrcsL l).filterMap (mediaOfSrc dir fs) ∧
    (piList dir fs l).2.2 = (imgSrcsL l).filterMap (missingOfSrc dir fs) ∧
    textsL (piList dir fs l).1 = textsL l ∧
    eraseSrcL (piList dir fs l).1 = eraseSrcL l
  | .nil => by simp [piList, imgSrcsL, textsL, eraseSrcL]
  | .cons n l => by
    obtain ⟨h1, h2, h3, h4, h5⟩ := piNode_spec dir fs n
    obtain ⟨g1, g2, g3, g4, g5⟩ := piList_spec dir fs l
    simp [piList, imgSrcsL, textsL, eraseSrcL, h1, h2, h3, h4, h5, g1, g2, g3, g4, g5]
end

theorem process_images_spec (element : Node) (dir : String) (fs : List String) :
    imgSrcs (process_images element dir fs).1 = (imgSrcs element).map (newSrc dir fs) ∧
    (process_images element dir fs).2.1 = (imgSrcs element).filterMap (mediaOfSrc dir fs) ∧
    (process_images element dir fs).2.2 = (imgSrcs element).filterMap (missingOfSrc dir fs) ∧
    textsN (process_images element dir fs).1 = textsN element ∧
    eraseSrcN (process_images element dir fs).1 = eraseSrcN element := by
  cases element with
  | text s => simp [process_images, imgSrcs, textsN, eraseSrcN]
  | elem nm attrs cs =>
    obtain ⟨h1, h2, h3, h4, h5⟩ := piList_spec dir fs cs
    simp [process_images, imgSrcs, textsN, eraseSrcN, h1, h2, h3, h4, h5]

/-! ## Path lemmas: basenames of joined paths -/

theorem takeWhile_append_all {p : Char → Bool} :
    ∀ (xs ys : List Char), (∀ a ∈ xs, p a = true) →
      (xs ++ ys).takeWhile p = xs ++ ys.takeWhile p
  | [], ys, _ => rfl
  | x :: xs, ys, h => by
    have hx : p x = true := h x (List.mem_cons_self x xs)
    rw [List.cons_append, List.takeWhile_cons, if_pos hx,
      takeWhile_append_all xs ys (fun a ha => h a (List.mem_cons_of_mem x ha)),
      List.cons_append]

theorem pathBasename_no_slash (s : String) : ∀ c ∈ (pathBasename s).data, c ≠ '/' := by
  intro c hc
  simp only [pathBasename] at hc
  rw [List.mem_reverse] at hc
  have := List.mem_takeWhile_imp hc
  simpa using this

theorem pathBasename_of_no_slash (fn : String) (h : ∀ c ∈ fn.data, c ≠ '/') :
    pathBasename fn = fn := by
  simp only [pathBasename]
  rw [List.takeWhile_eq_self_iff.mpr, List.reverse_reverse]
  intro a ha
  rw [List.mem_reverse] at ha
  simpa using h a ha

theorem pathBasename_joinPath (dir fn : String) (h : ∀ c ∈ fn.data, c ≠ '/') :
    pathBasename (joinPath dir fn) = fn := by
  have hrev : ∀ a ∈ fn.data.reverse, (decide (a ≠ '/')) = true := by
    intro a ha
    rw [List.mem_reverse] at ha
    simpa using h a ha
  unfold joinPath
  split
  · exact pathBasename_of_no_slash fn h
  · split
    · rename_i hlast
      rw [← List.head?_reverse] at hlast
      simp only [pathBasename, String.data_append, List.reverse_append]
      rw [takeWhile_append_all _ _ hrev]
      cases hd : dir.data.reverse with
      | nil =>
        rw [hd] at hlast
        simp at hlast
      | cons c rest =>
        rw [hd] at hlast
        simp only [List.head?_cons, Option.some.injEq] at hlast
        rw [List.takeWhile_cons, hlast]
        simp
    · simp only [pathBasename, String.data_append, List.reverse_append]
      rw [takeWhile_append_all _ _ hrev]
      simp [List.takeWhile_cons]

theorem mediaOfSrc_basename (dir : String) (fs : List String) (o : Option String) :
    (mediaOfSrc dir fs o).map pathBasename = resolvedName dir fs o := by
  cases o with
  | none => rfl
  | some s =>
    simp only [mediaOfSrc, resolvedName]
    by_cases hempty : s = ""
    · simp [hempty]
    · rw [if_neg hempty, if_neg hempty]
      by_cases hex : pathExists fs (joinPath dir (pathBasename (unquote s))) = true
      · rw [if_pos hex, if_pos hex]
        simp [pathBasename_joinPath dir _ (pathBasename_no_slash (unquote s))]
      · rw [Bool.not_eq_true] at hex
        rw [if_neg (by simp [hex]), if_neg (by simp [hex])]
        rfl

theorem mediaOfSrc_exists (dir : String) (fs : List String) (o : Option String)
    (p : String) (h : mediaOfSrc dir fs o = some p) : pathExists fs p = true := by
  cases o with
  | none => simp [mediaOfSrc] at h
  | some s =>
    simp only [mediaOfSrc] at h
    by_cases hempty : s = ""
    · rw [if_pos hempty] at h
      simp at h
    · rw [if_neg hempty] at h
      by_cases hex : pathExists fs (joinPath dir (pathBasename (unquote s))) = true
      · rw [if_pos hex, Option.some.injEq] at h
        rw [← h]
        exact hex
      · rw [if_neg hex] at h
        simp at h

/-! ## C3: media entries correspond one-to-one to rewritten references -/

/-- **C3**: the media list produced by `process_images`, mapped through
`pathBasename`, equals (positionally, hence one-to-one) the list of rewritten
image filenames appearing in the back markup; the rewritten `src` attributes
themselves are characterized by `newSrc`; no text is touched (so no
`[sound:...]` marker can appear in the back unless it was in the source). -/
theorem process_images_media_one_to_one (element : Node) (dir : String) (fs : List String) :
    ((process_images element dir fs).2.1).map pathBasename
        = (imgSrcs element).filterMap (resolvedName dir fs) ∧
    imgSrcs (process_images element dir fs).1 = (imgSrcs element).map (newSrc dir fs) ∧
    textsN (process_images element dir fs).1 = textsN element := by
  obtain ⟨h1, h2, _, h4, _⟩ := process_images_spec element dir fs
  refine ⟨?_, h1, h4⟩
  rw [h2, List.map_filterMap]
  exact List.filterMap_congr (fun o _ => mediaOfSrc_basename dir fs o)

/-! ## C4: missing assets leave the reference untouched, produce a diagnostic -/

theorem parse_callout_isSome_fs (callout : Node) (dir : String) (fs fs' : List String)
    (keep : Bool) :
    (parse_callout callout dir fs keep).isSome = (parse_callout callout dir fs' keep).isSome := by
  unfold parse_callout
  split
  · rfl
  · split
    · rfl
    · try simp only []
      split
      · rfl
      · try simp only []
        split
        · rfl
        · rfl

/-- **C4**: for every image reference whose decoded target does not exist,
media processing (i) leaves that reference unchanged at its position,
(ii) records the missing path as a diagnostic, (iii) adds only existing paths
to the media list, (iv) never alters any text, and (v) whether a callout
yields a card does not depend on the filesystem at all. -/
theorem process_images_missing_asset (element : Node) (dir : String) (fs : List String) :
    (∀ (i : Nat) (s : String), (imgSrcs element)[i]? = some (some s) → s ≠ "" →
        pathExists fs (joinPath dir (pathBasename (unquote s))) = false →
        (imgSrcs (process_images element dir fs).1)[i]? = some (some s) ∧
        joinPath dir (pathBasename (unquote s)) ∈ (process_images element dir fs).2.2) ∧
    (∀ p ∈ (process_images element dir fs).2.1, pathExists fs p = true) ∧
    textsN (process_images element dir fs).1 = textsN element ∧
    ∀ keep, (parse_callout element dir fs keep).isSome
        = (parse_callout element dir [] keep).isSome := by
  obtain ⟨h1, h2, h3, h4, _⟩ := process_images_spec element dir fs
  refine ⟨?_, ?_, h4, fun keep => parse_callout_isSome_fs element dir fs [] keep⟩
  · intro i s hi hs hex
    constructor
    · rw [h1, List.getElem?_map, hi]
      simp [newSrc, hs, hex]
    · rw [h3, List.mem_filterMap]
      refine ⟨some s, List.getElem?_mem hi, ?_⟩
      simp [missingOfSrc, hs, hex]
  · intro p hp
    rw [h2] at hp
    obtain ⟨o, _, ho⟩ := List.mem_filterMap.mp hp
    exact mediaOfSrc_exists dir fs o p ho

/-- A callout carrying one image whose decoded target (`assets/пič.png` is not
modelled; here simply `assets/missing.png`) does not exist on the filesystem. -/
def calloutMissing : Node :=
  .elem "figure" [("class", "callout")] (nl [
    .elem "div" [] (nl [
      .elem "p" [] (nl [.text "Q"]),
      .elem "img" [("src", "notes/missing.png")] .nil])])

theorem process_images_missing_asset_witness :
    ((imgSrcs (process_images calloutMissing "assets" []).1)[0]? = some (some "notes/missing.png") ∧
      "assets/missing.png" ∈ (process_images calloutMissing "assets" []).2.2) ∧
    (∀ p ∈ (process_images calloutMissing "assets" []).2.1, pathExists [] p = true) ∧
    textsN (process_images calloutMissing "assets" []).1 = textsN calloutMissing ∧
    ∀ keep, (parse_callout calloutMissing "assets" [] keep).isSome
        = (parse_callout calloutMissing "assets" [] keep).isSome := by
  obtain ⟨ha, hb, hc, hd⟩ := process_images_missing_asset calloutMissing "assets" []
  have := ha 0 "notes/missing.png" (by decide) (by decide) (by decide)
  exact ⟨by simpa using this, hb, hc, fun keep => rfl⟩

/-! ## C9: audio processing is disabled; anchors and text pass through -/

mutual
theorem aHrefsN_eraseSrc : ∀ n : Node, aHrefsN (eraseSrcN n) = aHrefsN n
  | .text _ => rfl
  | .elem nm attrs cs => by
    by_cases h : nm = "img"
    · subst h
      simp [eraseSrcN, aHrefsN, aHrefsL_eraseSrc cs]
    · simp [eraseSrcN, aHrefsN, h, aHrefsL_eraseSrc cs]
theorem aHrefsL_eraseSrc : ∀ l : NodeList, aHrefsL (eraseSrcL l) = aHrefsL l
  | .nil => rfl
  | .cons n l => by
    simp [eraseSrcL, aHrefsL, aHrefsN_eraseSrc n, aHrefsL_eraseSrc l]
end

/-- **C9**: the media processing used by `parse_callout` never rewrites an
anchor into a `[sound:...]` span and never adds audio entries: everything
except `img` `src` attributes is unchanged (in particular every anchor and its
`href`), no text node changes, and the media list consists exactly of the
resolved image paths.  (`process_audio_files` exists but is not called:
`process_media_in_html` is the image pass followed by serialization.) -/
theorem process_media_audio_disabled (element : Node) (dir : String) (fs : List String) :
    eraseSrcN (process_images element dir fs).1 = eraseSrcN element ∧
    aHrefsN (process_images element dir fs).1 = aHrefsN element ∧
    textsN (process_images element dir fs).1 = textsN element ∧
    (process_images element dir fs).2.1 = (imgSrcs element).filterMap (mediaOfSrc dir fs) ∧
    (process_media_in_html element dir fs).1 = serializeN (process_images element dir fs).1 ∧
    (process_media_in_html element dir fs).2.1 = (process_images element dir fs).2.1 := by
  obtain ⟨_, h2, _, h4, h5⟩ := process_images_spec element dir fs
  refine ⟨h5, ?_, h4, h2, rfl, rfl⟩
  rw [← aHrefsN_eraseSrc (process_images element dir fs).1, h5, aHrefsN_eraseSrc element]

/-! ## C2: when parse_callout returns none -/

/-- **C2 (amended)**: `parse_callout` returns `none` exactly when the callout
has no `div` anywhere in its subtree (first in document order — the source
uses a recursive `find`, not a direct-child search), or that `div` (after
hashtag extraction) has no direct element child, or the front element's
stripped text is empty. -/
theorem firstElemChild_extract_of_falsy (fd : Node) (keep : Bool)
    (h : truthy fd = false) : firstElemChild (extract_hashtags fd keep).1 = none := by
  cases fd with
  | text s => rfl
  | elem nm attrs cs =>
    cases cs with
    | nil => rfl
    | cons c l => simp [truthy] at h

theorem parse_callout_none_iff (callout : Node) (dir : String) (fs : List String)
    (keep : Bool) :
    parse_callout callout dir fs keep = none ↔
      findDesc (isElemNamed "div") callout = none ∨
      ∃ d, findDesc (isElemNamed "div") callout = some d ∧
        (firstElemChild (extract_hashtags d keep).1 = none ∨
         ∃ fe, firstElemChild (extract_hashtags d keep).1 = some fe ∧
           getTextStrip fe = "") := by
  unfold parse_callout
  cases hfd : findDesc (isElemNamed "div") callout with
  | none => simp
  | some d =>
    simp only []
    by_cases htr : truthy d = false
    · rw [if_pos htr]
      simp only [Option.some.injEq, reduceCtorEq, false_or]
      constructor
      · intro _
        exact ⟨d, rfl, Or.inl (firstElemChild_extract_of_falsy d keep htr)⟩
      · intro _
        trivial
    · rw [if_neg htr]
      simp only [Option.some.injEq, reduceCtorEq, false_or]
      cases hfe : firstElemChild (extract_hashtags d keep).1 with
      | none => simp [hfe]
      | some fe =>
        by_cases hft : getTextStrip fe = ""
        · simp [hfe, hft]
        · simp [hfe, hft]

/-- A callout whose only `div` is nested below a non-`div` child, so that no
`div` sits directly inside the callout. -/
def calloutNested : Node :=
  .elem "figure" [("class", "callout")] (nl [
    .elem "section" [] (nl [
      .elem "div" [] (nl [
        .elem "p" [] (nl [.text "Q"]),
        .elem "p" [] (nl [.text "A"])])])])

/-- **C2, counterexample**: the claim's condition "the callout has no first
generic container element directly inside it" holds for `calloutNested`
(no `div`-equivalent child), yet `parse_callout` does NOT return null: the
source locates the container anywhere in the subtree. -/
theorem parse_callout_none_iff_counterexample :
    (childrenOf calloutNested).find? (isElemNamed "div") = none ∧
    parse_callout calloutNested "assets" [] true ≠ none := by
  constructor
  · decide
  · decide

/-! ## C6: missing article or page body -/

def articleHeaderOnly : Node :=
  .elem "article" [] (nl [
    .elem "header" [] (nl [.elem "h1" [] (nl [.text "My Page"])]),
    .elem "p" [] (nl [.text "no page body here"])])

/-- A document with an article and header but no page-body region. -/
def docHeaderOnly : Node :=
  .elem "[document]" [] (nl [
    .elem "html" [] (nl [
      .elem "body" [] (nl [articleHeaderOnly])])])

/-- A document with no article at all. -/
def docNoArticle : Node :=
  .elem "[document]" [] (nl [.elem "html" [] (nl [.elem "body" [] .nil])])

/-- **C6, counterexample**: when the article exists but the page body is
missing, the result is empty but carries the header-derived deck name, not
the constant default required by the claim. -/
theorem parse_html_file_empty_counterexample :
    (parse_html_file docHeaderOnly "assets" [] true).2.1 = [] ∧
    (parse_html_file docHeaderOnly "assets" [] true).1 ≠ "Notion Deck" := by
  constructor
  · decide
  · decide

/-! Any node returned by `findN`/`findL` satisfies the search predicate. -/
mutual
theorem findN_sat (p : Node → Bool) : ∀ (n r : Node), findN p n = some r → p r = true
  | .text s, r => by
    intro h
    simp only [findN] at h
    split at h
    · rw [Option.some.injEq] at h
      subst h
      assumption
    · exact absurd h (by simp)
  | .elem nm attrs cs, r => by
    intro h
    simp only [findN] at h
    split at h
    · rw [Option.some.injEq] at h
      subst h
      assumption
    · exact findL_sat p cs r h
theorem findL_sat (p : Node → Bool) : ∀ (l : NodeList) (r : Node), findL p l = some r → p r = true
  | .nil, r => by
    intro h
    exact absurd h (by simp [findL])
  | .cons n l, r => by
    intro h
    simp only [findL] at h
    split at h
    · rename_i r' heq
      rw [Option.some.injEq] at h
      subst h
      exact findN_sat p n r' heq
    · exact findL_sat p l r h
end

/-- A childless element has no `h1`-under-`header` descendant. -/
theorem selectHeaderH1_of_falsy (article : Node)
    (helem : isElemNamed "article" article = true) (h : truthy article = false) :
    selectHeaderH1 article = none := by
  cases article with
  | text s => simp [isElemNamed] at helem
  | elem nm attrs cs =>
    cases cs with
    | nil => rfl
    | cons c l => simp [truthy] at h

/-- **C6 (amended)**: a document without an article root yields no cards and
the constant default deck name; a document whose article lacks a page-body
region yields no cards with the deck name from the header when present
(default otherwise — in particular an empty article, which has no header,
yields the default name).  Both are normal returns, not errors. -/
theorem parse_html_file_empty (doc : Node) (dir : String) (fs : List String) (keep : Bool) :
    (findDesc (isElemNamed "article") doc = none →
      parse_html_file doc dir fs keep = ("Notion Deck", [], extract_css_from_html doc)) ∧
    (∀ article, findDesc (isElemNamed "article") doc = some article →
      findDesc (isDivClass "page-body") article = none →
      (parse_html_file doc dir fs keep).2.1 = [] ∧
      (parse_html_file doc dir fs keep).1 =
        (match selectHeaderH1 article with
         | some header => if truthy header = true then getTextStrip header else "Notion Deck"
         | none => "Notion Deck")) := by
  constructor
  · intro h
    simp [parse_html_file, h]
  · intro article ha hpb
    by_cases htr : truthy article = true
    · simp [parse_html_file, ha, htr, hpb]
    · rw [Bool.not_eq_true] at htr
      have helem : isElemNamed "article" article = true := by
        cases doc with
        | text s => simp [findDesc] at ha
        | elem nm attrs cs => exact findL_sat _ cs article ha
      rw [selectHeaderH1_of_falsy article helem htr]
      simp [parse_html_file, ha, htr]

theorem parse_html_file_empty_witness :
    parse_html_file docNoArticle "assets" [] true = ("Notion Deck", [], some "") ∧
    ((parse_html_file docHeaderOnly "assets" [] true).2.1 = [] ∧
      (parse_html_file docHeaderOnly "assets" [] true).1 = "My Page") := by
  constructor
  · exact (parse_html_file_empty docNoArticle "assets" [] true).1 (by decide)
  · have h := (parse_html_file_empty docHeaderOnly "assets" [] true).2
      articleHeaderOnly (by decide) (by decide)
    refine ⟨h.1, ?_⟩
    rw [h.2]
    decide

/-! ## C10: a summary without an indented region still creates its key -/

theorem lookupSD_append_self (k : String) (v : List Card) :
    ∀ sd : Subdecks, lookupSD k sd = none → lookupSD k (sd ++ [(k, v)]) = some v
  | [], _ => by simp [lookupSD]
  | (k', w) :: r, h => by
    by_cases hk : k' = k
    · simp [lookupSD, hk] at h
    · simp only [lookupSD, if_neg hk] at h
      simp only [List.cons_append, lookupSD, if_neg hk]
      exact lookupSD_append_self k v r h

theorem lookupSD_insertIfAbsent_self (k : String) (sd : Subdecks) :
    lookupSD k (insertIfAbsent k sd) = some ((lookupSD k sd).getD []) := by
  unfold insertIfAbsent containsSD
  cases h : lookupSD k sd with
  | some v => simp [h]
  | none => simp [h, lookupSD_append_self k [] sd h]

/-- **C10**: a `details` element with a summary label but no indented region
still inserts the label as a subdeck key — `_process_details_subdeck` creates
the key before the indented-region check, so the subdeck appears in the
mapping with an empty card list when the key is new. -/
theorem details_without_indented_creates_key (details : Node) (sd : Subdecks)
    (dir : String) (fs : List String) (keep : Bool) (su : Node)
    (hsu : findDesc (isElemNamed "summary") details = some su)
    (htr : truthy su = true)
    (hind : findDesc (isDivClass "indented") details = none) :
    _process_details_subdeck details sd dir fs keep = insertIfAbsent (getTextStrip su) sd ∧
    lookupSD (getTextStrip su) (_process_details_subdeck details sd dir fs keep) =
      some ((lookupSD (getTextStrip su) sd).getD []) := by
  have h1 : _process_details_subdeck details sd dir fs keep =
      insertIfAbsent (getTextStrip su) sd := by
    unfold _process_details_subdeck
    simp [hsu, htr, hind]
  refine ⟨h1, ?_⟩
  rw [h1]
  exact lookupSD_insertIfAbsent_self _ sd

/-- A collapsible section with a label and no indented content region. -/
def detailsNoIndented : Node :=
  .elem "details" [] (nl [
    .elem "summary" [] (nl [.text "Empty Chapter"]),
    .elem "p" [] (nl [.text "nothing indented here"])])

theorem details_without_indented_creates_key_witness :
    _process_details_subdeck detailsNoIndented [] "assets" [] true =
        insertIfAbsent "Empty Chapter" [] ∧
    lookupSD "Empty Chapter" (_process_details_subdeck detailsNoIndented [] "assets" [] true) =
      some ((lookupSD "Empty Chapter" ([] : Subdecks)).getD []) := by
  have h := details_without_indented_creates_key detailsNoIndented [] "assets" [] true
    (.elem "summary" [] (nl [.text "Empty Chapter"])) (by decide) (by decide) (by decide)
  simpa using h

/-- The empty subdeck also surfaces at the document level. -/
example :
    (parse_html_file (.elem "[document]" [] (nl [
      .elem "article" [] (nl [
        .elem "div" [("class", "page-body")] (nl [detailsNoIndented])])]))
      "assets" [] true).2.1 = [("Empty Chapter", [])] := by decide

/-! ## C5: adjacency predicates on character lists -/

/-- No adjacent pair `(a, b)` with `bad a b`. -/
def noAdj (bad : Char → Char → Bool) : List Char → Bool
  | a :: b :: l => !bad a b && noAdj bad (b :: l)
  | _ => true

/-- A `#` directly followed by a word character: the shape of a hashtag token. -/
def hashBad (a b : Char) : Bool := a == '#' && isWordChar b

/-- Two adjacent whitespace characters. -/
def spaceBad (a b : Char) : Bool := isPySpace a && isPySpace b

/-- Does the text contain `#` directly followed by a word character? -/
def containsHashWord : List Char → Bool
  | a :: b :: l => (a == '#' && isWordChar b) || containsHashWord (b :: l)
  | _ => false

/-- Does the text contain a run of two or more consecutive spaces? -/
def containsTwoSpaces : List Char → Bool
  | a :: b :: l => (a == ' ' && b == ' ') || containsTwoSpaces (b :: l)
  | _ => false

/-- Guard for consing `a` onto `l` without creating a bad pair. -/
def headOK (bad : Char → Char → Bool) (a : Char) : List Char → Bool
  | [] => true
  | b :: _ => !bad a b

/-- Does the list start with a non-word character (or is it empty)? -/
def headNotWord : List Char → Bool
  | [] => true
  | c :: _ => !isWordChar c

theorem noAdj_cons (bad : Char → Char → Bool) (a : Char) (l : List Char) :
    noAdj bad (a :: l) = (headOK bad a l && noAdj bad l) := by
  cases l <;> rfl

theorem noAdj_tail {bad : Char → Char → Bool} {a : Char} {l : List Char}
    (h : noAdj bad (a :: l) = true) : noAdj bad l = true := by
  rw [noAdj_cons, Bool.and_eq_true] at h
  exact h.2

theorem noAdj_append_left {bad : Char → Char → Bool} :
    ∀ l1 l2 : List Char, noAdj bad (l1 ++ l2) = true → noAdj bad l1 = true
  | [], _, _ => rfl
  | a :: l1, l2, h => by
    rw [List.cons_append, noAdj_cons, Bool.and_eq_true] at h
    rw [noAdj_cons, Bool.and_eq_true]
    refine ⟨?_, noAdj_append_left l1 l2 h.2⟩
    cases l1 with
    | nil => rfl
    | cons b t =>
      simpa [headOK] using h.1

theorem noAdj_dropWhile {bad : Char → Char → Bool} (p : Char → Bool) :
    ∀ l : List Char, noAdj bad l = true → noAdj bad (l.dropWhile p) = true
  | [], _ => rfl
  | a :: l, h => by
    rw [List.dropWhile_cons]
    split
    · exact noAdj_dropWhile p l (noAdj_tail h)
    · exact h

theorem noAdj_dropTrail {bad : Char → Char → Bool} (p : Char → Bool) (l : List Char)
    (h : noAdj bad l = true) : noAdj bad (dropTrail p l) = true := by
  obtain ⟨t, ht⟩ := List.dropWhile_suffix (l := l.reverse) (p := p)
  have hl : l = dropTrail p l ++ t.reverse := by
    have := congrArg List.reverse ht
    simpa [dropTrail, List.reverse_append] using this.symm
  exact noAdj_append_left _ _ (hl ▸ h)

theorem noAdj_pyStrip {bad : Char → Char → Bool} (l : List Char)
    (h : noAdj bad l = true) : noAdj bad (pyStrip l) = true :=
  noAdj_dropTrail _ _ (noAdj_dropWhile _ l h)

/-! ## C5: what hashtag removal leaves behind -/

theorem scanAux_fst : ∀ l, (scanAux l).1 = l.takeWhile isWordChar
  | [] => rfl
  | c :: l => by
    simp only [scanAux, List.takeWhile_cons]
    by_cases hw : isWordChar c = true
    · simp [hw, scanAux_fst l]
    · by_cases hh : c = '#'
      · subst hh
        have : isWordChar '#' = false := by decide
        simp only [this, Bool.false_eq_true, if_false]
        cases hr : (scanAux l).1 <;> simp
      · simp [hw, hh]

theorem noAdj_hash_words_append :
    ∀ w t : List Char, (∀ a ∈ w, isWordChar a = true) → headNotWord t = true →
      noAdj hashBad t = true → noAdj hashBad (w ++ t) = true
  | [], t, _, _, h3 => h3
  | a :: w, t, h1, h2, h3 => by
    have ha : isWordChar a = true := h1 a (List.mem_cons_self a w)
    have hrest := noAdj_hash_words_append w t
      (fun b hb => h1 b (List.mem_cons_of_mem a hb)) h2 h3
    rw [List.cons_append, noAdj_cons, Bool.and_eq_true]
    refine ⟨?_, hrest⟩
    have hna : (a == '#') = false := by
      by_contra hc
      rw [Bool.not_eq_false, beq_iff_eq] at hc
      subst hc
      exact absurd ha (by decide)
    cases hw : w ++ t with
    | nil => rfl
    | cons b s => simp [headOK, hashBad, hna]

theorem scanAux_clean_ok : ∀ l,
    headNotWord (scanAux l).2.2 = true ∧ noAdj hashBad (scanAux l).2.2 = true
  | [] => ⟨rfl, rfl⟩
  | c :: l => by
    obtain ⟨ih1, ih2⟩ := scanAux_clean_ok l
    simp only [scanAux]
    by_cases hw : isWordChar c = true
    · simp only [hw, if_true]
      exact ⟨ih1, ih2⟩
    · by_cases hh : c = '#'
      · subst hh
        rw [if_neg (by decide), if_pos rfl]
        cases hr : (scanAux l).1 with
        | nil =>
          refine ⟨rfl, ?_⟩
          show noAdj hashBad ('#' :: (scanAux l).2.2) = true
          rw [noAdj_cons, Bool.and_eq_true]
          refine ⟨?_, ih2⟩
          cases hc : (scanAux l).2.2 with
          | nil => rfl
          | cons b s =>
            rw [hc] at ih1
            simp only [headNotWord] at ih1
            simp [headOK, hashBad, ih1]
        | cons w ws => exact ⟨ih1, ih2⟩
      · simp only [hw, Bool.false_eq_true, if_false, if_neg hh]
        have hwords : ∀ a ∈ (scanAux l).1, isWordChar a = true := by
          rw [scanAux_fst]
          intro a ha
          exact List.mem_takeWhile_imp ha
        have happ := noAdj_hash_words_append (scanAux l).1 (scanAux l).2.2 hwords ih1 ih2
        constructor
        · simp [headNotWord, hw]
        · rw [noAdj_cons, Bool.and_eq_true]
          refine ⟨?_, happ⟩
          have hna : (c == '#') = false := by
            simpa using hh
          cases hx : (scanAux l).1 ++ (scanAux l).2.2 with
          | nil => rfl
          | cons b s => simp [headOK, hashBad, hna]

theorem pyRemoveTags_noAdj_hash (s : String) : noAdj hashBad (pyRemoveTags s) = true := by
  unfold pyRemoveTags
  obtain ⟨h1, h2⟩ := scanAux_clean_ok s.data
  have hwords : ∀ a ∈ (scanAux s.data).1, isWordChar a = true := by
    rw [scanAux_fst]
    intro a ha
    exact List.mem_takeWhile_imp ha
  exact noAdj_hash_words_append _ _ hwords h1 h2

theorem scanAux_tags_nil : ∀ l, noAdj hashBad l = true → (scanAux l).2.1 = []
  | [], _ => rfl
  | c :: l, h => by
    have ht : noAdj hashBad l = true := noAdj_tail h
    simp only [scanAux]
    by_cases hw : isWordChar c = true
    · simp [hw, scanAux_tags_nil l ht]
    · by_cases hh : c = '#'
      · subst hh
        have h1 : (scanAux l).1 = [] := by
          rw [scanAux_fst]
          cases l with
          | nil => rfl
          | cons b t =>
            rw [noAdj_cons, Bool.and_eq_true] at h
            have : isWordChar b = false := by
              have := h.1
              simp only [headOK, hashBad] at this
              simpa using this
            simp [List.takeWhile_cons, this]
        simp [hw, h1, scanAux_tags_nil l ht]
      · simp [hw, hh, scanAux_tags_nil l ht]

/-! ## C5: whitespace collapsing -/

theorem collapseWs_cons_head : ∀ (c : Char) (l : List Char),
    ∃ t, collapseWs (c :: l) = (if isPySpace c = true then ' ' else c) :: t
  | c, [] => by
    simp only [collapseWs]
    split <;> exact ⟨[], rfl⟩
  | c, d :: l => by
    by_cases hc : isPySpace c = true
    · by_cases hd : isPySpace d = true
      · obtain ⟨t, ht⟩ := collapseWs_cons_head d l
        rw [if_pos hd] at ht
        refine ⟨t, ?_⟩
        simp only [collapseWs]
        rw [if_pos hc, if_pos hd, ht, if_pos hc]
      · refine ⟨collapseWs (d :: l), ?_⟩
        simp only [collapseWs]
        rw [if_pos hc, if_neg hd, if_pos hc]
    · refine ⟨collapseWs (d :: l), ?_⟩
      simp only [collapseWs]
      rw [if_neg hc, if_neg hc]

theorem collapseWs_noAdj_space : ∀ l, noAdj spaceBad (collapseWs l) = true
  | [] => rfl
  | [c] => by
    simp only [collapseWs]
    split <;> rfl
  | c :: d :: l => by
    have ih := collapseWs_noAdj_space (d :: l)
    obtain ⟨t, ht⟩ := collapseWs_cons_head d l
    by_cases hc : isPySpace c = true
    · by_cases hd : isPySpace d = true
      · simp only [collapseWs]
        rw [if_pos hc, if_pos hd]
        exact ih
      · simp only [collapseWs]
        rw [if_pos hc, if_neg hd]
        rw [if_neg hd] at ht
        rw [ht, noAdj_cons, Bool.and_eq_true]
        rw [ht] at ih
        refine ⟨?_, ih⟩
        simp [headOK, spaceBad, hd]
    · simp only [collapseWs]
      rw [if_neg hc]
      rw [ht, noAdj_cons, Bool.and_eq_true]
      rw [ht] at ih
      refine ⟨?_, ih⟩
      simp [headOK, spaceBad, hc]

theorem collapseWs_noAdj_hash :
    ∀ l, noAdj hashBad l = true → noAdj hashBad (collapseWs l) = true
  | [], _ => rfl
  | [c], _ => by
    simp only [collapseWs]
    split <;> rfl
  | c :: d :: l, h => by
    have hdl : noAdj hashBad (d :: l) = true := noAdj_tail h
    have ih := collapseWs_noAdj_hash (d :: l) hdl
    obtain ⟨t, ht⟩ := collapseWs_cons_head d l
    by_cases hc : isPySpace c = true
    · by_cases hd : isPySpace d = true
      · simp only [collapseWs]
        rw [if_pos hc, if_pos hd]
        exact ih
      · simp only [collapseWs]
        rw [if_pos hc, if_neg hd]
        rw [if_neg hd] at ht
        rw [ht, noAdj_cons, Bool.and_eq_true]
        rw [ht] at ih
        refine ⟨?_, ih⟩
        simp [headOK, hashBad]
    · simp only [collapseWs]
      rw [if_neg hc]
      rw [ht, noAdj_cons, Bool.and_eq_true]
      rw [ht] at ih
      refine ⟨?_, ih⟩
      by_cases hd : isPySpace d = true
      · rw [if_pos hd]
        have : isWordChar ' ' = false := by decide
        simp [headOK, hashBad, this]
      · rw [if_neg hd]
        rw [noAdj_cons, Bool.and_eq_true] at h
        have hp := h.1
        simp only [headOK] at hp
        simpa [headOK] using hp

/-- The rewritten text of a matched node: no hashtag token can be re-found in
it, and it contains no two adjacent whitespace characters. -/
theorem cleanedText_ok (s : String) :
    pyFindTags (cleanedText s) = [] ∧ noAdj spaceBad (cleanedText s).data = true := by
  have h1 : noAdj hashBad (pyRemoveTags s) = true := pyRemoveTags_noAdj_hash s
  have h2 : noAdj hashBad (collapseWs (pyRemoveTags s)) = true := collapseWs_noAdj_hash _ h1
  have h3 : noAdj spaceBad (collapseWs (pyRemoveTags s)) = true := collapseWs_noAdj_space _
  have hdata : (cleanedText s).data = pyStrip (collapseWs (pyRemoveTags s)) := rfl
  constructor
  · unfold pyFindTags
    rw [hdata]
    exact scanAux_tags_nil _ (noAdj_pyStrip _ h2)
  · rw [hdata]
    exact noAdj_pyStrip _ h3

/-! ## C5: the visible texts of a subtree (what the extractor may rewrite) -/

/-! The descendant text-node strings whose parent is not a `script`/`style`
tag — exactly the nodes `extract_hashtags` visits. -/
mutual
def vtextsN (parentName : String) : Node → List String
  | .text s => if parentName = "script" || parentName = "style" then [] else [s]
  | .elem nm _ cs => vtextsL nm cs
def vtextsL (parentName : String) : NodeList → List String
  | .nil => []
  | .cons n l => vtextsN parentName n ++ vtextsL parentName l
end

mutual
theorem ehNode_strip_ok : ∀ (pn : String) (n : Node),
    ∀ s ∈ vtextsN pn (ehNode false pn n).1,
      pyFindTags s = [] ∧ (s ∈ vtextsN pn n ∨ noAdj spaceBad s.data = true)
  | pn, .text str => by
    intro s hs
    by_cases hsk : (pn = "script" || pn = "style") = true
    · simp [ehNode, hsk, vtextsN] at hs
    · simp only [ehNode, hsk, Bool.false_eq_true, if_false] at hs
      simp only [vtextsN, hsk, Bool.false_eq_true, if_false, List.mem_singleton] at hs
      subst hs
      by_cases hfound : (pyFindTags str).isEmpty = true
      · have hnil : pyFindTags str = [] := List.isEmpty_iff.mp hfound
        have : (cleanNodeText false str).1 = str := by
          simp [cleanNodeText, hnil]
        rw [this]
        refine ⟨hnil, Or.inl ?_⟩
        simp [vtextsN, hsk]
      · have hcond : (!false && !(pyFindTags str).isEmpty) = true := by
          simp [hfound]
        have : (cleanNodeText false str).1 = cleanedText str := by
          simp only [cleanNodeText]
          rw [if_pos hcond]
        rw [this]
        obtain ⟨h1, h2⟩ := cleanedText_ok str
        exact ⟨h1, Or.inr h2⟩
  | pn, .elem nm attrs cs => by
    intro s hs
    have hm : s ∈ vtextsL nm (ehList false nm cs).1 := by
      simpa [ehNode, vtextsN] using hs
    have h := ehList_strip_ok nm cs s hm
    simpa [vtextsN] using h
theorem ehList_strip_ok : ∀ (pn : String) (l : NodeList),
    ∀ s ∈ vtextsL pn (ehList false pn l).1,
      pyFindTags s = [] ∧ (s ∈ vtextsL pn l ∨ noAdj spaceBad s.data = true)
  | pn, .nil => by
    intro s hs
    simp [ehList, vtextsL] at hs
  | pn, .cons n l => by
    intro s hs
    simp only [ehList] at hs
    rw [vtextsL, List.mem_append] at hs
    rcases hs with h | h
    · obtain ⟨h1, h2⟩ := ehNode_strip_ok pn n s h
      refine ⟨h1, ?_⟩
      rcases h2 with h2 | h2
      · exact Or.inl (by rw [vtextsL, List.mem_append]; exact Or.inl h2)
      · exact Or.inr h2
    · obtain ⟨h1, h2⟩ := ehList_strip_ok pn l s h
      refine ⟨h1, ?_⟩
      rcases h2 with h2 | h2
      · exact Or.inl (by rw [vtextsL, List.mem_append]; exact Or.inr h2)
      · exact Or.inr h2
end

/-- **C5 (amended)**: when `keep_tags` is false, every visible text node of
the extracted subtree (text under `script`/`style` parents is skipped by the
extractor) contains no `#`-followed-by-word-character token any more, and
every rewritten text node (one that is not literally a text node of the
input) contains no two adjacent whitespace characters.  Text nodes without a
matched token are left unchanged, so they may keep pre-existing runs of
spaces, and the front/back texts assembled from several nodes may still show
`#` glued to word characters across node boundaries (see the
counterexample). -/
theorem extract_hashtags_strip_tokens (element : Node) :
    ∀ s ∈ vtextsN "" (extract_hashtags element false).1,
      pyFindTags s = [] ∧ (s ∈ vtextsN "" element ∨ noAdj spaceBad s.data = true) :=
  ehNode_strip_ok "" element

theorem extract_hashtags_strip_tokens_witness :
    pyFindTags "Q" = [] ∧
      ("Q" ∈ vtextsN "" (.elem "div" [] (nl [.text "Q #t"])) ∨
        noAdj spaceBad "Q".data = true) :=
  extract_hashtags_strip_tokens (.elem "div" [] (nl [.text "Q #t"])) "Q" (by decide)

/-- A callout whose front is glued from `x# ` and `abc`, whose second node
carries the only hashtag, and whose back keeps an untouched two-space run. -/
def c5callout : Node :=
  .elem "figure" [("class", "callout")] (nl [
    .elem "div" [] (nl [
      .elem "p" [] (nl [.text "x# ", .elem "b" [] (nl [.text "abc"])]),
      .elem "p" [] (nl [.text "Q #t"]),
      .elem "p" [] (nl [.text "a  b"])])])

/-- **C5, counterexample**: with `keep_tags = false` this callout still yields
a card whose front text contains `#abc` (created by front-text concatenation
of stripped node texts) and whose back markup retains a two-space run (inside
a text node that contained no hashtag token and was therefore left
untouched). -/
theorem extract_hashtags_strip_counterexample :
    (parse_callout c5callout "assets" [] false).map
      (fun c => containsHashWord c.front.data && containsTwoSpaces c.back.data) = some true := by
  decide

/-! ## C1: specification-side description of the walker -/

/-- The summary label of a collapsible section, if any. -/
def summaryNameOf (d : Node) : Option String :=
  match findDesc (isElemNamed "summary") d with
  | none => none
  | some su => if truthy su then some (getTextStrip su) else none

/-- The subdeck names a top-level element introduces, in document order. -/
def introducedBy (e : Node) : List String :=
  if isElemNamed "details" e then
    match summaryNameOf e with
    | some s => [s]
    | none => []
  else if isElemNamed "figure" e && hasClass "callout" e then [DEFAULT_SUBDECK_NAME]
  else []

def introducedNames (tops : List Node) : List String := tops.flatMap introducedBy

/-- The callouts a top-level element contributes to subdeck `name`, in
document order. -/
def calloutsBy (name : String) (e : Node) : List Node :=
  if isElemNamed "details" e then
    match summaryNameOf e with
    | some s =>
      if s = name then
        match findDesc (isDivClass "indented") e with
        | some indented =>
          if truthy indented then (childrenOf indented).filter isCalloutFigure else []
        | none => []
      else []
    | none => []
  else if isElemNamed "figure" e && hasClass "callout" e then
    if name = DEFAULT_SUBDECK_NAME then [e] else []
  else []

def calloutsFor (name : String) (tops : List Node) : List Node :=
  tops.flatMap (calloutsBy name)

/-- Keep the first occurrence of each name. -/
def dedupFirst : List String → List String
  | [] => []
  | x :: l => x :: (dedupFirst l).filter (fun y => y ≠ x)

/-- The page body's direct children — the elements the walker iterates. -/
def topsOf (doc : Node) : List Node :=
  match findDesc (isElemNamed "article") doc with
  | none => []
  | some article =>
    if truthy article = false then []
    else
    match findDesc (isDivClass "page-body") article with
    | none => []
    | some page_body =>
      if truthy page_body = false then [] else childrenOf page_body

/-! ## C1: subdeck mapping lemmas -/

theorem containsSD_iff_mem_keys (k : String) :
    ∀ sd : Subdecks, containsSD k sd = true ↔ k ∈ sd.map Prod.fst
  | [] => by simp [containsSD, lookupSD]
  | (k', v) :: r => by
    by_cases h : k' = k
    · simp [containsSD, lookupSD, h]
    · simp only [containsSD, lookupSD, if_neg h, List.map_cons, List.mem_cons]
      rw [← containsSD, containsSD_iff_mem_keys k r]
      constructor
      · exact Or.inr
      · rintro (rfl | hm)
        · exact absurd rfl h
        · exact hm

theorem keys_appendCards (k : String) (cs : List Card) (sd : Subdecks) :
    (appendCards k cs sd).map Prod.fst = sd.map Prod.fst := by
  induction sd with
  | nil => rfl
  | cons kv r ih =>
    by_cases h : kv.1 = k
    · simp [appendCards, h] at ih ⊢
      exact ih
    · simp [appendCards, h] at ih ⊢
      exact ih

theorem keys_insertIfAbsent (k : String) (sd : Subdecks) :
    (insertIfAbsent k sd).map Prod.fst =
      sd.map Prod.fst ++ (if containsSD k sd = true then [] else [k]) := by
  unfold insertIfAbsent
  by_cases h : containsSD k sd = true
  · simp [h]
  · simp [h]

theorem lookupSD_appendCards_self (k : String) (cs : List Card) :
    ∀ sd : Subdecks, lookupSD k (appendCards k cs sd) = (lookupSD k sd).map (· ++ cs)
  | [] => rfl
  | (k', v) :: r => by
    simp only [appendCards, List.map_cons]
    by_cases h : k' = k
    · rw [if_pos h]
      simp only [lookupSD]
      rw [if_pos h, if_pos h]
      rfl
    · rw [if_neg h]
      simp only [lookupSD]
      rw [if_neg h, if_neg h]
      exact lookupSD_appendCards_self k cs r

theorem lookupSD_appendCards_ne (k name : String) (cs : List Card) (hne : name ≠ k) :
    ∀ sd : Subdecks, lookupSD name (appendCards k cs sd) = lookupSD name sd
  | [] => rfl
  | (k', v) :: r => by
    simp only [appendCards, List.map_cons]
    by_cases h : k' = k
    · rw [if_pos h]
      simp only [lookupSD]
      have hkn : ¬k' = name := fun hc => hne (hc ▸ h)
      rw [if_neg hkn, if_neg hkn]
      exact lookupSD_appendCards_ne k name cs hne r
    · rw [if_neg h]
      simp only [lookupSD]
      by_cases h2 : k' = name
      · rw [if_pos h2, if_pos h2]
      · rw [if_neg h2, if_neg h2]
        exact lookupSD_appendCards_ne k name cs hne r

theorem lookupSD_append_one (k name : String) (v : List Card) (hne : name ≠ k) :
    ∀ sd : Subdecks, lookupSD name (sd ++ [(k, v)]) = lookupSD name sd
  | [] => by
    simp only [List.nil_append, lookupSD]
    rw [if_neg (fun hc => hne hc.symm)]
  | (k', w) :: r => by
    simp only [List.cons_append, lookupSD]
    by_cases h : k' = name
    · rw [if_pos h, if_pos h]
    · rw [if_neg h, if_neg h]
      exact lookupSD_append_one k name v hne r

theorem lookupSD_insertIfAbsent_ne (k name : String) (hne : name ≠ k) (sd : Subdecks) :
    lookupSD name (insertIfAbsent k sd) = lookupSD name sd := by
  unfold insertIfAbsent
  by_cases h : containsSD k sd = true
  · simp [h]
  · simp only [h, if_false]
    exact lookupSD_append_one k name [] hne sd

theorem appendCards_nil (k : String) (sd : Subdecks) : appendCards k [] sd = sd := by
  simp [appendCards]

theorem mem_dedupFirst (x : String) : ∀ l : List String, x ∈ dedupFirst l ↔ x ∈ l
  | [] => by simp [dedupFirst]
  | y :: l => by
    simp only [dedupFirst, List.mem_cons, List.mem_filter]
    constructor
    · rintro (rfl | ⟨hm, _⟩)
      · exact Or.inl rfl
      · exact Or.inr ((mem_dedupFirst x l).mp hm)
    · rintro (rfl | hm)
      · exact Or.inl rfl
      · by_cases hxy : x = y
        · exact Or.inl hxy
        · exact Or.inr ⟨(mem_dedupFirst x l).mpr hm, by simpa using hxy⟩

theorem dedupFirst_nodup : ∀ l : List String, (dedupFirst l).Nodup
  | [] => List.nodup_nil
  | y :: l => by
    simp only [dedupFirst]
    rw [List.nodup_cons]
    constructor
    · intro hy
      have := (List.mem_filter.mp hy).2
      simp at this
    · exact List.Nodup.filter _ (dedupFirst_nodup l)

theorem dedupFirst_append_one (x : String) : ∀ l : List String,
    dedupFirst (l ++ [x]) = dedupFirst l ++ (if x ∈ l then [] else [x])
  | [] => by simp [dedupFirst]
  | y :: l => by
    have ih := dedupFirst_append_one x l
    have e1 : dedupFirst ((y :: l) ++ [x]) =
        y :: (dedupFirst (l ++ [x])).filter (fun z => decide (z ≠ y)) := rfl
    have e2 : dedupFirst (y :: l) =
        y :: (dedupFirst l).filter (fun z => decide (z ≠ y)) := rfl
    rw [e1, e2, ih]
    by_cases hxl : x ∈ l
    · rw [if_pos hxl, if_pos (List.mem_cons_of_mem y hxl)]
      simp
    · rw [if_neg hxl]
      by_cases hxy : x = y
      · subst hxy
        rw [if_pos (List.mem_cons_self x l), List.filter_append]
        simp
      · rw [if_neg (show x ∉ y :: l by simp [hxy, hxl]), List.filter_append]
        simp [hxy]

/-! ## C1: the walker invariant -/

theorem introducedNames_append (tops : List Node) (e : Node) :
    introducedNames (tops ++ [e]) = introducedNames tops ++ introducedBy e := by
  simp [introducedNames]

theorem calloutsFor_append (name : String) (tops : List Node) (e : Node) :
    calloutsFor name (tops ++ [e]) = calloutsFor name tops ++ calloutsBy name e := by
  simp [calloutsFor]

theorem calloutsBy_introduced (name : String) (e : Node)
    (h : calloutsBy name e ≠ []) : name ∈ introducedBy e := by
  unfold calloutsBy introducedBy at *
  by_cases hdet : isElemNamed "details" e = true
  · rw [if_pos hdet] at h ⊢
    cases hsum : summaryNameOf e with
    | none =>
      rw [hsum] at h
      simp at h
    | some s =>
      rw [hsum] at h
      simp only [] at h ⊢
      by_cases hname : s = name
      · subst hname
        exact List.mem_singleton.mpr rfl
      · rw [if_neg hname] at h
        exact absurd rfl h
  · rw [if_neg hdet] at h ⊢
    by_cases hfig : (isElemNamed "figure" e && hasClass "callout" e) = true
    · rw [if_pos hfig] at h ⊢
      by_cases hname : name = DEFAULT_SUBDECK_NAME
      · subst hname
        exact List.mem_singleton.mpr rfl
      · rw [if_neg hname] at h
        exact absurd rfl h
    · rw [if_neg hfig] at h
      exact absurd rfl h

theorem calloutsFor_eq_nil (name : String) :
    ∀ tops : List Node, name ∉ introducedNames tops → calloutsFor name tops = []
  | [], _ => rfl
  | e :: r, h => by
    have hsplit : introducedNames (e :: r) = introducedBy e ++ introducedNames r := by
      simp [introducedNames]
    rw [hsplit, List.mem_append] at h
    push_neg at h
    have h1 : calloutsBy name e = [] := by
      by_contra hc
      exact h.1 (calloutsBy_introduced name e hc)
    have h2 : calloutsFor name r = [] := calloutsFor_eq_nil name r h.2
    show calloutsBy name e ++ calloutsFor name r = []
    rw [h1, h2]
    rfl

theorem flatMap_filter_eq {α β : Type} (q : α → Bool) (f : α → List β) :
    ∀ l : List α, (∀ e ∈ l, q e = false → f e = []) →
      (l.filter q).flatMap f = l.flatMap f
  | [], _ => rfl
  | a :: l, h => by
    have ih := flatMap_filter_eq q f l (fun e he hq => h e (List.mem_cons_of_mem a he) hq)
    by_cases hq : q a = true
    · rw [List.filter_cons_of_pos hq, List.flatMap_cons, List.flatMap_cons, ih]
    · rw [Bool.not_eq_true] at hq
      rw [List.filter_cons_of_neg (by simp [hq]), List.flatMap_cons,
        h a (List.mem_cons_self a l) hq, ih]
      rfl

/-- The invariant tying the walker's accumulated mapping to the processed
prefix of top-level elements. -/
def Conforms (dir : String) (fs : List String) (keep : Bool)
    (tops : List Node) (sd : Subdecks) : Prop :=
  sd.map Prod.fst = dedupFirst (introducedNames tops) ∧
  ∀ name, lookupSD name sd =
    if name ∈ introducedNames tops
    then some ((calloutsFor name tops).filterMap (fun c => parse_callout c dir fs keep))
    else none

theorem conforms_nil (dir : String) (fs : List String) (keep : Bool) :
    Conforms dir fs keep [] [] := by
  constructor
  · rfl
  · intro name
    simp [introducedNames, lookupSD, dedupFirst]

theorem conforms_keep (dir : String) (fs : List String) (keep : Bool)
    (tops : List Node) (sd : Subdecks) (e : Node)
    (h : Conforms dir fs keep tops sd)
    (hi : introducedBy e = [])
    (hc : ∀ name, calloutsBy name e = [])
    (hs : stepTop dir fs keep sd e = sd) :
    Conforms dir fs keep (tops ++ [e]) (stepTop dir fs keep sd e) := by
  obtain ⟨h1, h2⟩ := h
  rw [hs]
  constructor
  · rw [introducedNames_append, hi, List.append_nil, h1]
  · intro name
    rw [introducedNames_append, hi, List.append_nil, calloutsFor_append, hc name,
      List.append_nil]
    exact h2 name

theorem conforms_insert (dir : String) (fs : List String) (keep : Bool)
    (tops : List Node) (sd : Subdecks) (e : Node) (nm : String) (L : List Node)
    (h : Conforms dir fs keep tops sd)
    (hi : introducedBy e = [nm])
    (hcn : calloutsBy nm e = L)
    (hc : ∀ name, name ≠ nm → calloutsBy name e = [])
    (hs : stepTop dir fs keep sd e =
      appendCards nm (L.filterMap (fun c => parse_callout c dir fs keep))
        (insertIfAbsent nm sd)) :
    Conforms dir fs keep (tops ++ [e]) (stepTop dir fs keep sd e) := by
  obtain ⟨h1, h2⟩ := h
  have hmem : containsSD nm sd = true ↔ nm ∈ introducedNames tops := by
    rw [containsSD_iff_mem_keys, h1, mem_dedupFirst]
  rw [hs]
  constructor
  · rw [keys_appendCards, keys_insertIfAbsent, h1, introducedNames_append, hi,
      dedupFirst_append_one]
    by_cases hin : nm ∈ introducedNames tops
    · rw [if_pos hin, if_pos (hmem.mpr hin)]
    · rw [if_neg hin, if_neg (fun hcon => hin (hmem.mp hcon))]
  · intro name
    rw [introducedNames_append, hi, calloutsFor_append]
    by_cases hname : name = nm
    · subst hname
      rw [lookupSD_appendCards_self, lookupSD_insertIfAbsent_self, h2 name, hcn,
        List.filterMap_append]
      have hin2 : name ∈ introducedNames tops ++ [name] :=
        List.mem_append.mpr (Or.inr (List.mem_singleton.mpr rfl))
      rw [if_pos hin2]
      by_cases hin : name ∈ introducedNames tops
      · rw [if_pos hin]
        rfl
      · rw [if_neg hin, calloutsFor_eq_nil name tops hin]
        rfl
    · rw [lookupSD_appendCards_ne nm name _ hname, lookupSD_insertIfAbsent_ne nm name hname,
        h2 name, hc name hname, List.append_nil]
      by_cases hin : name ∈ introducedNames tops
      · rw [if_pos hin, if_pos (List.mem_append.mpr (Or.inl hin))]
      · rw [if_neg hin, if_neg ?_]
        intro hcon
        rcases List.mem_append.mp hcon with hx | hx
        · exact hin hx
        · exact hname (List.mem_singleton.mp hx)

theorem conforms_step (dir : String) (fs : List String) (keep : Bool)
    (tops : List Node) (sd : Subdecks) (e : Node)
    (h : Conforms dir fs keep tops sd) :
    Conforms dir fs keep (tops ++ [e]) (stepTop dir fs keep sd e) := by
  by_cases hdet : isElemNamed "details" e = true
  · cases hsum : findDesc (isElemNamed "summary") e with
    | none =>
      apply conforms_keep dir fs keep tops sd e h
      · simp [introducedBy, hdet, summaryNameOf, hsum]
      · intro name
        simp [calloutsBy, hdet, summaryNameOf, hsum]
      · simp [stepTop, hdet, _process_details_subdeck, hsum]
    | some su =>
      by_cases htr : truthy su = true
      · cases hind : findDesc (isDivClass "indented") e with
        | none =>
          apply conforms_insert dir fs keep tops sd e (getTextStrip su) [] h
          · simp [introducedBy, hdet, summaryNameOf, hsum, htr]
          · simp [calloutsBy, hdet, summaryNameOf, hsum, htr, hind]
          · intro name hne
            unfold calloutsBy
            rw [if_pos hdet, show summaryNameOf e = some (getTextStrip su) by
              simp [summaryNameOf, hsum, htr]]
            simp only []
            rw [if_neg (fun hc => hne hc.symm)]
          · rw [List.filterMap_nil, appendCards_nil]
            simp [stepTop, hdet, _process_details_subdeck, hsum, htr, hind]
        | some ind =>
          by_cases hit : truthy ind = true
          · apply conforms_insert dir fs keep tops sd e (getTextStrip su)
              ((childrenOf ind).filter isCalloutFigure) h
            · simp [introducedBy, hdet, summaryNameOf, hsum, htr]
            · simp [calloutsBy, hdet, summaryNameOf, hsum, htr, hind, hit]
            · intro name hne
              unfold calloutsBy
              rw [if_pos hdet, show summaryNameOf e = some (getTextStrip su) by
                simp [summaryNameOf, hsum, htr]]
              simp only []
              rw [if_neg (fun hc => hne hc.symm)]
            · simp [stepTop, hdet, _process_details_subdeck, hsum, htr, hind, hit]
          · rw [Bool.not_eq_true] at hit
            apply conforms_insert dir fs keep tops sd e (getTextStrip su) [] h
            · simp [introducedBy, hdet, summaryNameOf, hsum, htr]
            · simp [calloutsBy, hdet, summaryNameOf, hsum, htr, hind, hit]
            · intro name hne
              unfold calloutsBy
              rw [if_pos hdet, show summaryNameOf e = some (getTextStrip su) by
                simp [summaryNameOf, hsum, htr]]
              simp only []
              rw [if_neg (fun hc => hne hc.symm)]
            · rw [List.filterMap_nil, appendCards_nil]
              simp [stepTop, hdet, _process_details_subdeck, hsum, htr, hind, hit]
      · rw [Bool.not_eq_true] at htr
        apply conforms_keep dir fs keep tops sd e h
        · simp [introducedBy, hdet, summaryNameOf, hsum, htr]
        · intro name
          simp [calloutsBy, hdet, summaryNameOf, hsum, htr]
        · simp [stepTop, hdet, _process_details_subdeck, hsum, htr]
  · by_cases hfig : (isElemNamed "figure" e && hasClass "callout" e) = true
    · apply conforms_insert dir fs keep tops sd e DEFAULT_SUBDECK_NAME [e] h
      · simp [introducedBy, hdet, hfig]
      · simp [calloutsBy, hdet, hfig]
      · intro name hne
        simp [calloutsBy, hdet, hfig, hne]
      · cases hp : parse_callout e dir fs keep with
        | none =>
          rw [show ([e].filterMap (fun c => parse_callout c dir fs keep)) = [] by
            simp [List.filterMap_cons, hp], appendCards_nil]
          simp [stepTop, hdet, hfig, _process_standalone_callout, hp]
        | some card =>
          rw [show ([e].filterMap (fun c => parse_callout c dir fs keep)) = [card] by
            simp [List.filterMap_cons, hp]]
          simp [stepTop, hdet, hfig, _process_standalone_callout, hp]
    · apply conforms_keep dir fs keep tops sd e h
      · simp [introducedBy, hdet, hfig]
      · intro name
        simp [calloutsBy, hdet, hfig]
      · simp [stepTop, hdet, hfig]

theorem conforms_fold (dir : String) (fs : List String) (keep : Bool) :
    ∀ (l tops : List Node) (sd : Subdecks), Conforms dir fs keep tops sd →
      Conforms dir fs keep (tops ++ l) (l.foldl (stepTop dir fs keep) sd)
  | [], tops, sd, h => by simpa using h
  | e :: l, tops, sd, h => by
    have h1 := conforms_step dir fs keep tops sd e h
    have h2 := conforms_fold dir fs keep l (tops ++ [e]) _ h1
    rw [List.append_assoc] at h2
    simpa [List.foldl_cons] using h2

theorem introducedBy_not_top (e : Node)
    (hq : (isElemNamed "details" e || isElemNamed "figure" e) = false) :
    introducedBy e = [] := by
  rw [Bool.or_eq_false_iff] at hq
  simp [introducedBy, hq.1, hq.2]

theorem calloutsBy_not_top (name : String) (e : Node)
    (hq : (isElemNamed "details" e || isElemNamed "figure" e) = false) :
    calloutsBy name e = [] := by
  rw [Bool.or_eq_false_iff] at hq
  simp [calloutsBy, hq.1, hq.2]

/-- **C1**: for every input document, the subdecks mapping of
`parse_html_file` lists subdeck names in first-seen order of the introducing
elements, without duplicate keys (a repeated collapsible-section label reuses
its entry), and each subdeck's card list is exactly the cards parsed from its
own callouts in document order. -/
theorem parse_html_file_subdeck_structure (doc : Node) (dir : String) (fs : List String)
    (keep : Bool) :
    ((parse_html_file doc dir fs keep).2.1).map Prod.fst
        = dedupFirst (introducedNames (topsOf doc)) ∧
    (((parse_html_file doc dir fs keep).2.1).map Prod.fst).Nodup ∧
    ∀ name, lookupSD name (parse_html_file doc dir fs keep).2.1 =
      if name ∈ introducedNames (topsOf doc)
      then some ((calloutsFor name (topsOf doc)).filterMap
        (fun c => parse_callout c dir fs keep))
      else none := by
  have hempty : ∀ tops : Subdecks, tops = [] →
      (tops.map Prod.fst = dedupFirst (introducedNames ([] : List Node)) ∧
        (tops.map Prod.fst).Nodup ∧
        ∀ name, lookupSD name tops =
          if name ∈ introducedNames ([] : List Node)
          then some ((calloutsFor name ([] : List Node)).filterMap
            (fun c => parse_callout c dir fs keep))
          else none) := by
    rintro _ rfl
    refine ⟨rfl, List.nodup_nil, ?_⟩
    intro name
    simp [introducedNames, lookupSD, dedupFirst]
  cases ha : findDesc (isElemNamed "article") doc with
  | none =>
    have hsd : (parse_html_file doc dir fs keep).2.1 = [] := by
      simp [parse_html_file, ha]
    have htop : topsOf doc = [] := by simp [topsOf, ha]
    rw [hsd, htop]
    exact hempty [] rfl
  | some article =>
    by_cases hat : truthy article = true
    · cases hpb : findDesc (isDivClass "page-body") article with
      | none =>
        have hsd : (parse_html_file doc dir fs keep).2.1 = [] := by
          simp [parse_html_file, ha, hat, hpb]
        have htop : topsOf doc = [] := by simp [topsOf, ha, hat, hpb]
        rw [hsd, htop]
        exact hempty [] rfl
      | some page_body =>
        by_cases hpt : truthy page_body = true
        · have hsd : (parse_html_file doc dir fs keep).2.1 =
              ((childrenOf page_body).filter
                (fun e => isElemNamed "details" e || isElemNamed "figure" e)).foldl
                (stepTop dir fs keep) [] := by
            simp [parse_html_file, ha, hat, hpb, hpt]
          have htop : topsOf doc = childrenOf page_body := by
            simp [topsOf, ha, hat, hpb, hpt]
          have hconf := conforms_fold dir fs keep
            ((childrenOf page_body).filter
              (fun e => isElemNamed "details" e || isElemNamed "figure" e)) [] []
            (conforms_nil dir fs keep)
          rw [List.nil_append] at hconf
          obtain ⟨c1, c2⟩ := hconf
          have hIN : introducedNames ((childrenOf page_body).filter
              (fun e => isElemNamed "details" e || isElemNamed "figure" e)) =
              introducedNames (childrenOf page_body) :=
            flatMap_filter_eq _ introducedBy _ (fun e _ hq => introducedBy_not_top e hq)
          have hCF : ∀ name, calloutsFor name ((childrenOf page_body).filter
              (fun e => isElemNamed "details" e || isElemNamed "figure" e)) =
              calloutsFor name (childrenOf page_body) := fun name =>
            flatMap_filter_eq _ (calloutsBy name) _ (fun e _ hq => calloutsBy_not_top name e hq)
          rw [hIN] at c1
          rw [hsd, htop, c1]
          refine ⟨rfl, dedupFirst_nodup _, ?_⟩
          intro name
          have hl := c2 name
          rw [hIN, hCF name] at hl
          exact hl
        · rw [Bool.not_eq_true] at hpt
          have hsd : (parse_html_file doc dir fs keep).2.1 = [] := by
            simp [parse_html_file, ha, hat, hpb, hpt]
          have htop : topsOf doc = [] := by simp [topsOf, ha, hat, hpb, hpt]
          rw [hsd, htop]
          exact hempty [] rfl
    · rw [Bool.not_eq_true] at hat
      have hsd : (parse_html_file doc dir fs keep).2.1 = [] := by
        simp [parse_html_file, ha, hat]
      have htop : topsOf doc = [] := by simp [topsOf, ha, hat]
      rw [hsd, htop]
      exact hempty [] rfl

/-- A document whose collapsible-section label "Ch" appears twice, with a
standalone callout in between: the two sections merge into one subdeck in
first-seen order, before the default subdeck. -/
def docRepeat : Node :=
  .elem "[document]" [] (nl [
    .elem "article" [] (nl [
      .elem "div" [("class", "page-body")] (nl [
        .elem "details" [] (nl [
          .elem "summary" [] (nl [.text "Ch"]),
          .elem "div" [("class", "indented")] (nl [
            .elem "figure" [("class", "callout")] (nl [
              .elem "div" [] (nl [
                .elem "p" [] (nl [.text "Q1"]),
                .elem "p" [] (nl [.text "A1"])])])])]),
        .elem "figure" [("class", "callout")] (nl [
          .elem "div" [] (nl [
            .elem "p" [] (nl [.text "Q3"]),
            .elem "p" [] (nl [.text "A3"])])]),
        .elem "details" [] (nl [
          .elem "summary" [] (nl [.text "Ch"]),
          .elem "div" [("class", "indented")] (nl [
            .elem "figure" [("class", "callout")] (nl [
              .elem "div" [] (nl [
                .elem "p" [] (nl [.text "Q2"]),
                .elem "p" [] (nl [.text "A2"])])])])])])])])

example :
    (parse_html_file docRepeat "assets" [] true).2.1 =
      [("Ch", [⟨"Q1", "<div><p>A1</p></div>", [], []⟩,
               ⟨"Q2", "<div><p>A2</p></div>", [], []⟩]),
       ("Default", [⟨"Q3", "<div><p>A3</p></div>", [], []⟩])] := by decide

end AnkiNotion
